import Mathlib

/-!
Verification of `bitarray/util.py` (zeros, strip, make_endian, ba2hex,
hex2ba, ba2int, int2ba, huffman_code) against its natural-language
specification.

The bit-sequence storage engine (`bitarray` proper) is an external
collaborator; following its documented contract, a bitarray is modelled as
the list of its logical bit values (position 0 first) together with an
endianness tag.  The endianness only affects how the sequence maps to and
from byte buffers (`tobytes` / `frombytes`) and integers.  The process-wide
default endianness is modelled by passing the endianness explicitly at each
call site.
-/

/-- Bit-endianness tag: `'big'` or `'little'`. -/
inductive Endian : Type
  | big
  | little
deriving DecidableEq, Repr

/-- A bitarray value: logical bit contents (index 0 first) plus endianness. -/
structure BitSeq : Type where
  bits : List Bool
  endian : Endian
deriving DecidableEq, Repr

/-- Python-level errors raised by the utility functions.
`overflowError` carries the two numbers interpolated into the message
`"cannot represent %d bit integer in %d bits"`. -/
inductive Err : Type
  | typeError
  | valueError
  | overflowError (size : Nat) (nbits : Nat)
deriving DecidableEq, Repr

/-- The three allowed mode strings of `strip`. -/
inductive Mode : Type
  | left
  | right
  | both
deriving DecidableEq, Repr

/-- Numeric value of a bit list under an endianness:
for `big`, bit 0 is the most significant; for `little`, bit 0 is the
least significant.  On an 8-bit chunk this is exactly the byte value the
storage engine packs (its documented byte layout). -/
def bitsVal (e : Endian) (l : List Bool) : Nat :=
  match e with
  | .big => l.foldl (fun a b => 2 * a + b.toNat) 0
  | .little => l.foldr (fun b a => b.toNat + 2 * a) 0

/-- The 8 logical bits a byte contributes under an endianness
(contract of the storage engine's byte layout). -/
def byteDecode (e : Endian) (v : Nat) : List Bool :=
  match e with
  | .big => (List.range 8).map (fun j => v.testBit (7 - j))
  | .little => (List.range 8).map (fun j => v.testBit j)

/-- Pack a bit list (whose length must be a multiple of 8) into bytes. -/
def packBytes (e : Endian) : List Bool → List Nat
  | b0 :: b1 :: b2 :: b3 :: b4 :: b5 :: b6 :: b7 :: rest =>
      bitsVal e [b0, b1, b2, b3, b4, b5, b6, b7] :: packBytes e rest
  | _ => []

/-- `a.tobytes()`: pad with zero bits up to a multiple of 8, then pack
(contract of the storage engine: unused pad bits read as 0). -/
def tobytes (e : Endian) (l : List Bool) : List Nat :=
  packBytes e (l ++ List.replicate ((8 - l.length % 8) % 8) false)

/-- `a.frombytes(b)`: unpack every byte into its 8 logical bits. -/
def frombytes (e : Endian) : List Nat → List Bool
  | [] => []
  | v :: rest => byteDecode e v ++ frombytes e rest

/-- Reversal of the bit order inside one buffer byte
(one byte of `bitarray.bytereverse()`). -/
def reverse8 (v : Nat) : Nat :=
  bitsVal .little (byteDecode .big v)

/-- Entry `i` of the 256-entry translate table `_swap_hilo_list`,
`16 * (i % 16) + (i // 16)`: swaps the high and low nibble of a byte. -/
def swapNib (v : Nat) : Nat :=
  16 * (v % 16) + v / 16

/-- `bits2bytes(n)` from the bitarray package: bytes needed for `n` bits. -/
def bits2bytes (n : Nat) : Nat :=
  (n + 7) / 8

/-- Fuel-driven helper for `bitLen` (the fuel makes it structurally
recursive; `bitLen` always supplies enough fuel). -/
def bitLenAux : Nat → Nat → Nat
  | 0, _ => 0
  | fuel + 1, n => if n = 0 then 0 else bitLenAux fuel (n / 2) + 1

/-- Python `int.bit_length()`: number of bits needed to represent `n`,
`0` for `n = 0`. -/
def bitLen (n : Nat) : Nat :=
  bitLenAux n n

/-- `i.to_bytes(m, byteorder='little')`: byte `k` is `i >> 8k mod 256`
(documented contract of Python's `int.to_bytes`). -/
def toBytesLE : Nat → Nat → List Nat
  | 0, _ => []
  | m + 1, i => (i % 256) :: toBytesLE m (i / 256)

/-- `i.to_bytes(m, byteorder=e)`. -/
def toBytes (e : Endian) (m : Nat) (i : Nat) : List Nat :=
  match e with
  | .little => toBytesLE m i
  | .big => (toBytesLE m i).reverse

/-- `int.from_bytes(b, byteorder=e)` (documented contract). -/
def intFromBytes (e : Endian) (bs : List Nat) : Nat :=
  match e with
  | .big => bs.foldl (fun a x => 256 * a + x) 0
  | .little => bs.foldr (fun x a => x + 256 * a) 0

/-- `zeros(length, endian)`: all-zero bitarray of the given length. -/
def zeros (n : Nat) (e : Endian) : BitSeq :=
  ⟨List.replicate n false, e⟩

/-- `a.index(1)` as an option: index of the first 1 bit
(contract of the storage engine; `none` models the `ValueError`). -/
def index1? (l : List Bool) : Option Nat :=
  l.findIdx? (· = true)

/-- `rindex(a)` as an option: index of the last 1 bit
(contract of `bitarray._util.rindex`; `none` models the `ValueError`). -/
def rindex1? (l : List Bool) : Option Nat :=
  (l.reverse.findIdx? (· = true)).map (fun f => l.length - 1 - f)

/-- `strip(a, mode)`: drop zero bits from the scanned end(s); an all-zero
(or empty) input yields a fresh empty bitarray with the same endianness. -/
def strip (a : BitSeq) (mode : Mode) : BitSeq :=
  -- first = 0; if mode in ('left', 'both'): first = a.index(1), ValueError -> empty
  let firstOpt : Option Nat :=
    if mode = .left ∨ mode = .both then index1? a.bits else some 0
  match firstOpt with
  | none => ⟨[], a.endian⟩
  | some first =>
    -- last = a.length() - 1; if mode in ('right', 'both'): last = rindex(a)
    let lastOpt : Option Nat :=
      if mode = .right ∨ mode = .both then rindex1? a.bits
      else some (a.bits.length - 1)
    match lastOpt with
    | none => ⟨[], a.endian⟩
    | some last => ⟨(a.bits.drop first).take (last + 1 - first), a.endian⟩

/-- `make_endian(a, endian)`: the same-endianness path returns the input
itself; otherwise `b = bitarray(a, endian)` copies the raw byte buffer,
`b.bytereverse()` reverses the bit order inside every buffer byte, and if
the length is not a multiple of 8 the trailing partial byte's bit
positions are re-copied from the source (`b[p:] = a[p:]`). -/
def make_endian (a : BitSeq) (e : Endian) : BitSeq :=
  if a.endian = e then a
  else
    let la := a.bits.length
    let buf := tobytes a.endian a.bits
    -- b = bitarray(a, endian=endian): raw buffer copy, same bit length
    let b : BitSeq := ⟨(frombytes e buf).take la, e⟩
    if la = 0 then b
    else
      -- b.bytereverse()
      let b : BitSeq := ⟨(frombytes e (buf.map reverse8)).take la, e⟩
      if la % 8 ≠ 0 then
        -- p = 8 * (bits2bytes(la) - 1); b[p:] = a[p:]
        let p := 8 * (bits2bytes la - 1)
        ⟨b.bits.take p ++ a.bits.drop p, e⟩
      else b

/-- One byte of `binascii.hexlify`: two lowercase hex characters. -/
def hexlify (bs : List Nat) : List Char :=
  bs.flatMap (fun v => [Nat.digitChar (v / 16), Nat.digitChar (v % 16)])

/-- Value of one hex character (upper or lower case), `none` otherwise. -/
def hexCharVal? (c : Char) : Option Nat :=
  if '0' ≤ c ∧ c ≤ '9' then some (c.toNat - '0'.toNat)
  else if 'a' ≤ c ∧ c ≤ 'f' then some (c.toNat - 'a'.toNat + 10)
  else if 'A' ≤ c ∧ c ≤ 'F' then some (c.toNat - 'A'.toNat + 10)
  else none

/-- `binascii.unhexlify`: parse pairs of hex characters into bytes;
a non-hex character or an odd length raises `binascii.Error`
(a `ValueError` subclass). -/
def unhexlify : List Char → Except Err (List Nat)
  | [] => .ok []
  | [_] => .error .valueError
  | c1 :: c2 :: rest =>
    match hexCharVal? c1, hexCharVal? c2 with
    | some v1, some v2 => (unhexlify rest).map (fun bs => (16 * v1 + v2) :: bs)
    | _, _ => .error .valueError

/-- `ba2hex(a)`: hexadecimal representation of a bitarray whose length is a
multiple of 4.  When the length is not a multiple of 8 the source appends
`bitarray(4, endian=a.endian())`, a freshly allocated *uninitialized*
4-bit array; `junk` stands for those four unspecified bits (the hex digit
they produce is dropped again by `s[:-1]`). -/
def ba2hex (a : BitSeq) (junk : List Bool) : Except Err (List Char) :=
  let la := a.bits.length
  if la % 4 ≠ 0 then .error .valueError
  else
    let abits := if la % 8 ≠ 0 then a.bits ++ junk else a.bits
    let b := tobytes a.endian abits
    let b := if a.endian = .little then b.map swapNib else b
    let s := hexlify b
    .ok (if la % 8 ≠ 0 then s.dropLast else s)

/-- Body shared by the `str` and `bytes` branches of `hex2ba` (the two
branches differ only in the pad literal, `'0'` versus `b'0'`, the same
character). -/
def hex2baCore (cs : List Char) (e : Endian) : Except Err BitSeq :=
  let ls := cs.length
  let padded := if ls % 2 = 1 then cs ++ ['0'] else cs
  match unhexlify padded with
  | .error er => .error er
  | .ok b =>
    let b := if e = .little then b.map swapNib else b
    let abits := frombytes e b
    -- if ls % 2: del a[-4:]
    .ok ⟨if ls % 2 = 1 then abits.take (abits.length - 4) else abits, e⟩

/-- Argument of `hex2ba`: Python `str`, `bytes` (its hex characters), or a
value of any other type. -/
inductive HexArg : Type
  | str (cs : List Char)
  | bytes (cs : List Char)
  | other
deriving DecidableEq

/-- `hex2ba(s, endian)`: bitarray of a hexadecimal representation;
raises `TypeError` unless the argument is `str` or `bytes`. -/
def hex2ba (s : HexArg) (e : Endian) : Except Err BitSeq :=
  match s with
  | .other => .error .typeError  -- "string expected"
  | .str cs => hex2baCore cs e   -- odd length: s = s + '0'
  | .bytes cs => hex2baCore cs e -- odd length: s = s + b'0'

/-- `ba2int(a)`: integer value of a non-empty bitarray; zero bits are
prepended (big-endian) or appended (little-endian) to a *copy* until the
length is a multiple of 8, then the byte buffer is read as an integer. -/
def ba2int (a : BitSeq) : Except Err Nat :=
  if a.bits.isEmpty then .error .valueError  -- "non-empty bitarray expected"
  else
    let la := a.bits.length
    let padded :=
      if la % 8 ≠ 0 then
        match a.endian with
        | .big => (zeros (8 - la % 8) .big).bits ++ a.bits
        | .little => a.bits ++ (zeros (8 - la % 8) .little).bits
      else a.bits
    .ok (intFromBytes a.endian (tobytes a.endian padded))

/-- The body of `int2ba` after its argument checks (`i` non-negative,
`length` positive when given).  A slice with a negative Python stop index,
`a[:length - la]`, is `a.take length`. -/
def int2baCore (i : Nat) («length» : Option Nat) (e : Endian) :
    Except Err BitSeq :=
  if i = 0 then .ok (zeros («length».getD 1) e)  -- zeros(length or 1)
  else
    let b := toBytes e (bits2bytes (bitLen i)) i
    let abits := frombytes e b
    let la := abits.length
    match «length» with
    | none =>
      -- la == length is false when length is None
      .ok (strip ⟨abits, e⟩ (if e = .big then .left else .right))
    | some L =>
      if la = L then .ok ⟨abits, e⟩
      else if la > L then
        -- size = (la - a.index(1)) if big_endian else (rindex(a) + 1)
        let size :=
          if e = .big then la - abits.findIdx (· = true)
          else (rindex1? abits).getD 0 + 1
        if size > L then .error (.overflowError size L)
        else .ok ⟨if e = .big then abits.drop (la - L) else abits.take L, e⟩
      else
        .ok ⟨if e = .big then
               (zeros (L - la) .big).bits ++ abits
             else abits ++ (zeros (L - la) .little).bits, e⟩

/-- `int2ba(i, length, endian)`: bitarray of a non-negative integer, of
minimal width when `length` is omitted, of exactly `length` bits otherwise
(`OverflowError` when the significant bits do not fit). -/
def int2ba (i : Nat) («length» : Option Nat) (e : Endian) : Except Err BitSeq :=
  match «length» with
  | some L =>
    if L = 0 then .error .valueError  -- "integer larger than 0 expected"
    else int2baCore i (some L) e
  | none => int2baCore i none e

/-- Huffman tree node (`Node` in the source: either `.symbol` or `.child`
is set, `.freq` always is). -/
inductive HNode (α : Type) : Type
  | leaf (symbol : α) (freq : Nat)
  | parent (child0 child1 : HNode α) (freq : Nat)

/-- `.freq` of a node. -/
def HNode.freq {α : Type} : HNode α → Nat
  | .leaf _ f => f
  | .parent _ _ f => f

/-- `heapq.heappop`: remove and return a smallest element of the queue
(modelled from the heapq contract; on ties the first minimal element is
taken — the source orders nodes by `.freq` alone, so the tie order is not
observable in the properties proved here). -/
def popMin {α : Type} : List (HNode α) → Option (HNode α × List (HNode α))
  | [] => none
  | [x] => some (x, [])
  | x :: y :: rest =>
    match popMin (y :: rest) with
    | some (m, rest') => if m.freq < x.freq then some (m, x :: rest') else some (x, y :: rest)
    | none => some (x, y :: rest)

/-- The `while len(minheap) > 1` loop of `huff_tree`: pop the two smallest
nodes, push their parent, repeat.  Each round shrinks the heap by one, so
`fuel = initial length` always suffices. -/
def huffLoop {α : Type} : Nat → List (HNode α) → List (HNode α)
  | 0, l => l
  | fuel + 1, l =>
    if l.length ≤ 1 then l
    else
      match popMin l with
      | none => l
      | some (child0, l1) =>
        match popMin l1 with
        | none => l
        | some (child1, l2) =>
          huffLoop fuel (l2 ++ [HNode.parent child0 child1 (child0.freq + child1.freq)])

/-- The recursive `traverse`: leaves record their accumulated path, parents
descend with `prefix + bitarray([0])` and `prefix + bitarray([1])`.  The
resulting assignments are listed in traversal order (the source writes them
into a dict whose keys, the distinct symbols, never collide). -/
def traverseCode {α : Type} (e : Endian) : HNode α → List Bool → List (α × BitSeq)
  | .leaf s _, pre => [(s, ⟨pre, e⟩)]
  | .parent c0 c1 _, pre =>
    traverseCode e c0 (pre ++ [false]) ++ traverseCode e c1 (pre ++ [true])

/-- `huffman_code(freq_map, endian)`: leaves are pushed in dict order, the
tree is built by the heap loop, and codes are read off by traversal. -/
def huffman_code {α : Type} (freq_map : List (α × Nat)) (e : Endian) :
    Except Err (List (α × BitSeq)) :=
  if freq_map.isEmpty then .error .valueError  -- "non-empty dict expected"
  else
    let minheap := freq_map.map (fun p => HNode.leaf p.1 p.2)
    match huffLoop minheap.length minheap with
    | root :: _ => .ok (traverseCode e root [])
    | [] => .error .valueError  -- unreachable: the loop keeps the heap non-empty

/-!
Object-identity layer for the mutation claim: a store (heap) of allocated
bitarray objects, references into it, and store-passing versions of the
operations mirroring where the source allocates fresh arrays and which
objects its in-place calls (`setall`, `bytereverse`, slice assignment)
mutate.  Every mutation in the source targets a locally allocated array.
-/

/-- Heap of allocated bitarray objects; a reference is an index into it. -/
abbrev Store : Type := List BitSeq

/-- Allocate a fresh bitarray object, returning its reference. -/
def Store.alloc (σ : Store) (v : BitSeq) : Store × Nat :=
  (List.append σ [v], List.length σ)

/-- Read the object a reference denotes. -/
def Store.read (σ : Store) (r : Nat) : BitSeq :=
  List.getD σ r ⟨[], .big⟩

/-- Overwrite the object a reference denotes (an in-place mutation). -/
def Store.write (σ : Store) (r : Nat) (v : BitSeq) : Store :=
  List.set σ r v

/-- `zeros` with explicit allocation: `bitarray(length, endian)` allocates
a fresh (uninitialized, here placeholder) array and `a.setall(0)` mutates
that fresh array only. -/
def zerosS (σ : Store) (n : Nat) (e : Endian) : Store × Nat :=
  let (σ1, r) := σ.alloc ⟨List.replicate n false, e⟩
  (σ1.write r (zeros n e), r)

/-- `strip` with explicit allocation: both the empty-result constructor and
the slice `a[first:last+1]` return freshly allocated arrays. -/
def stripS (σ : Store) (r : Nat) (mode : Mode) : Store × Nat :=
  (σ.read r |> fun a => σ.alloc (strip a mode))

/-- `make_endian` with explicit allocation: the same-endianness path
returns the argument object itself; otherwise `bitarray(a, endian)`
allocates `b`, and `b.bytereverse()` and `b[p:] = a[p:]` mutate `b`. -/
def make_endianS (σ : Store) (r : Nat) (e : Endian) : Store × Nat :=
  let a := σ.read r
  if a.endian = e then (σ, r)
  else
    let la := a.bits.length
    let buf := tobytes a.endian a.bits
    let (σ1, rb) := σ.alloc ⟨(frombytes e buf).take la, e⟩
    if la = 0 then (σ1, rb)
    else
      let σ2 := σ1.write rb ⟨(frombytes e (buf.map reverse8)).take la, e⟩
      if la % 8 ≠ 0 then
        let p := 8 * (bits2bytes la - 1)
        let b := σ2.read rb
        (σ2.write rb ⟨b.bits.take p ++ a.bits.drop p, e⟩, rb)
      else (σ2, rb)

/-- `ba2hex` with explicit allocation: when the length is not a multiple
of 8, `a = a + bitarray(4, endian=a.endian())` allocates the uninitialized
4-bit array and the concatenation, rebinding only the local name — the
argument object is untouched. -/
def ba2hexS (σ : Store) (r : Nat) (junk : List Bool) :
    Store × Except Err (List Char) :=
  let a := σ.read r
  if a.bits.length % 4 ≠ 0 then (σ, .error .valueError)
  else if a.bits.length % 8 ≠ 0 then
    let (σ1, _) := σ.alloc ⟨junk, a.endian⟩
    let (σ2, _) := σ1.alloc ⟨a.bits ++ junk, a.endian⟩
    (σ2, ba2hex a junk)
  else (σ, ba2hex a junk)

/-- `ba2int` with explicit allocation: the zero padding allocates the pad
array and the concatenation (`a = zeros(...) + a` or `a = a + zeros(...)`),
rebinding only the local name. -/
def ba2intS (σ : Store) (r : Nat) : Store × Except Err Nat :=
  let a := σ.read r
  if a.bits.isEmpty then (σ, .error .valueError)
  else if a.bits.length % 8 ≠ 0 then
    let pad := List.replicate (8 - a.bits.length % 8) false
    let (σ1, _) := σ.alloc ⟨pad, a.endian⟩
    let (σ2, _) := σ1.alloc
      (match a.endian with
       | .big => ⟨pad ++ a.bits, a.endian⟩
       | .little => ⟨a.bits ++ pad, a.endian⟩)
    (σ2, ba2int a)
  else (σ, ba2int a)

/-- `int2ba` with explicit allocation: the result array is freshly built
(every branch constructs or slices new arrays); intermediate allocations
are elided, the returned object is fresh. -/
def int2baS (σ : Store) (i : Nat) («length» : Option Nat) (e : Endian) :
    Store × Except Err Nat :=
  match int2ba i «length» e with
  | .ok v => (σ.alloc v |> fun (σ1, r) => (σ1, .ok r))
  | .error er => (σ, .error er)

/-- `hex2ba` with explicit allocation: the result array is freshly built
(`bitarray(endian=...)` then `frombytes` into it). -/
def hex2baS (σ : Store) (s : HexArg) (e : Endian) : Store × Except Err Nat :=
  match hex2ba s e with
  | .ok v => (σ.alloc v |> fun (σ1, r) => (σ1, .ok r))
  | .error er => (σ, .error er)

/-- `huffman_code` with explicit allocation: the frequency map holds no
bitarray objects, and all code arrays in the result are freshly built. -/
def huffman_codeS {α : Type} (σ : Store) (fm : List (α × Nat)) (e : Endian) :
    Store × Except Err (List (α × Nat)) :=
  match huffman_code fm e with
  | .ok res =>
    (List.append σ (res.map Prod.snd),
     .ok ((res.map Prod.fst).zip ((List.range res.length).map (σ.length + ·))))
  | .error er => (σ, .error er)

/-! The bit expansion produced by `to_bytes` then `frombytes`. -/

/-- Little-endian bit expansion of width `w`: bit `j` is `i.testBit j`. -/
def bitsLE (w i : Nat) : List Bool :=
  (List.range w).map (fun j => i.testBit j)

/-- Big-endian bit expansion of width `w`: most significant bit first. -/
def bitsBE (w i : Nat) : List Bool :=
  (List.range w).map (fun j => i.testBit (w - 1 - j))

/-- The symbols at the leaves of a Huffman tree, left to right. -/
def HNode.leaves {α : Type} : HNode α → List α
  | .leaf s _ => [s]
  | .parent c0 c1 _ => c0.leaves ++ c1.leaves

/-- All leaf symbols in a heap of trees. -/
def leavesOf {α : Type} (l : List (HNode α)) : List α :=
  l.flatMap HNode.leaves

/-! Basic lemmas about bit values, byte packing and unpacking. -/

theorem bitsVal_big_append (l1 l2 : List Bool) :
    bitsVal .big (l1 ++ l2) = bitsVal .big l1 * 2 ^ l2.length + bitsVal .big l2 := by
  have key : ∀ (l : List Bool) (acc : Nat),
      l.foldl (fun a b => 2 * a + b.toNat) acc =
        acc * 2 ^ l.length + l.foldl (fun a b => 2 * a + b.toNat) 0 := by
    intro l
    induction l with
    | nil => intro acc; simp
    | cons b t ih =>
      intro acc
      simp only [List.foldl_cons, List.length_cons]
      rw [ih (2 * acc + b.toNat), ih (2 * 0 + b.toNat)]
      ring
  simp only [bitsVal, List.foldl_append]
  rw [key l2 (l1.foldl (fun a b => 2 * a + b.toNat) 0)]

theorem bitsVal_little_cons (b : Bool) (l : List Bool) :
    bitsVal .little (b :: l) = b.toNat + 2 * bitsVal .little l := rfl

theorem bitsVal_little_append (l1 l2 : List Bool) :
    bitsVal .little (l1 ++ l2) =
      bitsVal .little l1 + 2 ^ l1.length * bitsVal .little l2 := by
  induction l1 with
  | nil => simp [bitsVal]
  | cons b t ih =>
    simp only [List.cons_append, bitsVal_little_cons, ih, List.length_cons]
    ring

theorem bitsVal_replicate_false (e : Endian) (k : Nat) :
    bitsVal e (List.replicate k false) = 0 := by
  induction k with
  | zero => cases e <;> rfl
  | succ n ih =>
    revert ih
    cases e <;> simp_all [bitsVal, List.replicate_succ]

theorem bitsVal_big_replicate_prepend (k : Nat) (l : List Bool) :
    bitsVal .big (List.replicate k false ++ l) = bitsVal .big l := by
  rw [bitsVal_big_append, bitsVal_replicate_false]
  simp

theorem bitsVal_little_replicate_append (k : Nat) (l : List Bool) :
    bitsVal .little (l ++ List.replicate k false) = bitsVal .little l := by
  rw [bitsVal_little_append, bitsVal_replicate_false]
  simp

theorem byteDecode_bitsVal (e : Endian) (b0 b1 b2 b3 b4 b5 b6 b7 : Bool) :
    byteDecode e (bitsVal e [b0, b1, b2, b3, b4, b5, b6, b7]) =
      [b0, b1, b2, b3, b4, b5, b6, b7] := by
  cases e <;> revert b0 b1 b2 b3 b4 b5 b6 b7 <;> decide

theorem bitsVal_lt_256 (e : Endian) (b0 b1 b2 b3 b4 b5 b6 b7 : Bool) :
    bitsVal e [b0, b1, b2, b3, b4, b5, b6, b7] < 256 := by
  cases e <;> revert b0 b1 b2 b3 b4 b5 b6 b7 <;> decide

set_option maxRecDepth 40000 in
theorem bitsVal_byteDecode (e : Endian) (v : Nat) (h : v < 256) :
    bitsVal e (byteDecode e v) = v := by
  cases e <;> revert v <;> decide

theorem frombytes_append (e : Endian) (bs1 bs2 : List Nat) :
    frombytes e (bs1 ++ bs2) = frombytes e bs1 ++ frombytes e bs2 := by
  induction bs1 with
  | nil => rfl
  | cons v t ih => simp [frombytes, ih]

theorem frombytes_length (e : Endian) (bs : List Nat) :
    (frombytes e bs).length = 8 * bs.length := by
  induction bs with
  | nil => rfl
  | cons v t ih =>
    simp only [frombytes, List.length_append, List.length_cons, ih]
    have : (byteDecode e v).length = 8 := by cases e <;> simp [byteDecode]
    omega

theorem byteDecode_length (e : Endian) (v : Nat) :
    (byteDecode e v).length = 8 := by
  cases e <;> simp [byteDecode]

set_option maxRecDepth 4000 in
theorem frombytes_packBytes (e : Endian) :
    ∀ l : List Bool, l.length % 8 = 0 → frombytes e (packBytes e l) = l
  | [], _ => rfl
  | b0 :: b1 :: b2 :: b3 :: b4 :: b5 :: b6 :: b7 :: rest, h => by
    have hr : rest.length % 8 = 0 := by
      simp only [List.length_cons] at h
      omega
    simp only [packBytes, frombytes, frombytes_packBytes e rest hr,
      byteDecode_bitsVal]
    rfl
  | [_], h => by simp at h
  | [_, _], h => by simp at h
  | [_, _, _], h => by simp at h
  | [_, _, _, _], h => by simp at h
  | [_, _, _, _, _], h => by simp at h
  | [_, _, _, _, _, _], h => by simp at h
  | [_, _, _, _, _, _, _], h => by simp at h

theorem tobytes_of_mod8 (e : Endian) (l : List Bool) (h : l.length % 8 = 0) :
    tobytes e l = packBytes e l := by
  simp [tobytes, h]

theorem frombytes_tobytes (e : Endian) (l : List Bool) :
    frombytes e (tobytes e l) =
      l ++ List.replicate ((8 - l.length % 8) % 8) false := by
  rw [tobytes, frombytes_packBytes]
  simp only [List.length_append, List.length_replicate]
  omega

theorem packBytes_mem_lt (e : Endian) :
    ∀ (l : List Bool) (v : Nat), v ∈ packBytes e l → v < 256
  | b0 :: b1 :: b2 :: b3 :: b4 :: b5 :: b6 :: b7 :: rest, v, hv => by
    simp only [packBytes, List.mem_cons] at hv
    rcases hv with h | h
    · subst h; exact bitsVal_lt_256 e b0 b1 b2 b3 b4 b5 b6 b7
    · exact packBytes_mem_lt e rest v h
  | [], v, hv => by simp [packBytes] at hv
  | [_], v, hv => by simp [packBytes] at hv
  | [_, _], v, hv => by simp [packBytes] at hv
  | [_, _, _], v, hv => by simp [packBytes] at hv
  | [_, _, _, _], v, hv => by simp [packBytes] at hv
  | [_, _, _, _, _], v, hv => by simp [packBytes] at hv
  | [_, _, _, _, _, _], v, hv => by simp [packBytes] at hv
  | [_, _, _, _, _, _, _], v, hv => by simp [packBytes] at hv

/-! Lemmas about `bitLen` (Python's `int.bit_length`). -/

theorem bitLenAux_zero (fuel : Nat) : bitLenAux fuel 0 = 0 := by
  cases fuel <;> rfl

theorem bitLenAux_congr :
    ∀ (f1 : Nat) (n f2 : Nat), n ≤ f1 → n ≤ f2 →
      bitLenAux f1 n = bitLenAux f2 n := by
  intro f1
  induction f1 with
  | zero =>
    intro n f2 h1 _
    interval_cases n
    rw [bitLenAux_zero, bitLenAux_zero]
  | succ g1 ih =>
    intro n f2 h1 h2
    rcases Nat.eq_zero_or_pos n with hn | hn
    · subst hn; rw [bitLenAux_zero, bitLenAux_zero]
    · cases f2 with
      | zero => omega
      | succ g2 =>
        simp only [bitLenAux, if_neg (by omega : ¬ n = 0)]
        rw [ih (n / 2) g2 (by omega) (by omega)]

theorem bitLen_div2 (n : Nat) (h : n ≠ 0) : bitLen n = bitLen (n / 2) + 1 := by
  cases n with
  | zero => omega
  | succ m =>
    show bitLenAux (m + 1) (m + 1) = bitLen ((m + 1) / 2) + 1
    simp only [bitLenAux, if_neg (by omega : ¬ m + 1 = 0)]
    rw [bitLenAux_congr m ((m + 1) / 2) ((m + 1) / 2) (by omega) (by omega)]
    rfl

theorem bitLen_pos (n : Nat) (h : 0 < n) : 0 < bitLen n := by
  rw [bitLen_div2 n (by omega)]
  omega

theorem lt_two_pow_bitLen : ∀ n : Nat, n < 2 ^ bitLen n := by
  intro n
  induction n using Nat.strong_induction_on with
  | _ n ih =>
    rcases Nat.eq_zero_or_pos n with hn | hn
    · subst hn; simp [bitLen, bitLenAux_zero]
    · have h2 := ih (n / 2) (by omega)
      rw [bitLen_div2 n (by omega), pow_succ]
      omega

theorem two_pow_bitLen_sub_one_le :
    ∀ n : Nat, 0 < n → 2 ^ (bitLen n - 1) ≤ n := by
  intro n
  induction n using Nat.strong_induction_on with
  | _ n ih =>
    intro hn
    rcases Nat.lt_or_ge n 2 with h2 | h2
    · have : n = 1 := by omega
      subst this
      rw [bitLen_div2 1 (by omega)]
      simp [bitLen, bitLenAux_zero]
    · have hd : 0 < n / 2 := by omega
      have ihh := ih (n / 2) (by omega) hd
      have hp := bitLen_pos (n / 2) hd
      rw [bitLen_div2 n (by omega)]
      have : 2 ^ (bitLen (n / 2) + 1 - 1) = 2 * 2 ^ (bitLen (n / 2) - 1) := by
        rw [Nat.add_sub_cancel, ← pow_succ']
        congr 1
        omega
      rw [this]
      omega

theorem bitLen_le_iff (n w : Nat) : bitLen n ≤ w ↔ n < 2 ^ w := by
  constructor
  · intro h
    exact lt_of_lt_of_le (lt_two_pow_bitLen n) (Nat.pow_le_pow_right (by omega) h)
  · intro h
    by_contra hc
    push_neg at hc
    rcases Nat.eq_zero_or_pos n with hn | hn
    · subst hn; simp [bitLen, bitLenAux_zero] at hc
    · have h1 := two_pow_bitLen_sub_one_le n hn
      have h2 : 2 ^ w ≤ 2 ^ (bitLen n - 1) :=
        Nat.pow_le_pow_right (by omega) (by omega)
      omega

theorem testBit_of_bitLen_le (n k : Nat) (h : bitLen n ≤ k) :
    n.testBit k = false := by
  exact Nat.testBit_lt_two_pow (lt_of_lt_of_le (lt_two_pow_bitLen n)
    (Nat.pow_le_pow_right (by omega) h))

theorem testBit_bitLen_sub_one (n : Nat) (h : 0 < n) :
    n.testBit (bitLen n - 1) = true := by
  have h1 := two_pow_bitLen_sub_one_le n h
  have h2 := lt_two_pow_bitLen n
  have hb := bitLen_pos n h
  have hdiv : n / 2 ^ (bitLen n - 1) = 1 := by
    apply Nat.div_eq_of_lt_le
    · omega
    · have : 2 ^ bitLen n = 2 * 2 ^ (bitLen n - 1) := by
        rw [← pow_succ']
        congr 1
        omega
      omega
  rw [Nat.testBit_to_div_mod, hdiv]
  rfl

theorem bitsLE_length (w i : Nat) : (bitsLE w i).length = w := by
  simp [bitsLE]

theorem bitsBE_length (w i : Nat) : (bitsBE w i).length = w := by
  simp [bitsBE]

theorem bitsBE_eq_reverse (w i : Nat) : bitsBE w i = (bitsLE w i).reverse := by
  apply List.ext_getElem
  · simp [bitsBE, bitsLE]
  · intro j h1 h2
    rw [List.getElem_reverse]
    simp only [bitsBE, bitsLE, List.getElem_map, List.getElem_range]
    congr 1
    simp only [bitsLE, List.length_map, List.length_range] at h2 ⊢

theorem byteDecode_little_mod (i : Nat) :
    byteDecode .little (i % 256) = bitsLE 8 i := by
  simp only [byteDecode, bitsLE]
  apply List.map_congr_left
  intro j hj
  rw [List.mem_range] at hj
  have : (256 : Nat) = 2 ^ 8 := by norm_num
  rw [this, Nat.testBit_mod_two_pow]
  simp [hj]

theorem testBit_div256 (i j : Nat) : (i / 256).testBit j = i.testBit (8 + j) := by
  have h1 : i / 256 = i >>> 8 := by
    rw [Nat.shiftRight_eq_div_pow]
  rw [h1, Nat.testBit_shiftRight]

theorem frombytes_toBytesLE :
    ∀ (m i : Nat), frombytes .little (toBytesLE m i) = bitsLE (8 * m) i := by
  intro m
  induction m with
  | zero => intro i; simp [toBytesLE, frombytes, bitsLE]
  | succ m ih =>
    intro i
    show byteDecode .little (i % 256) ++ frombytes .little (toBytesLE m (i / 256)) = _
    rw [ih (i / 256), byteDecode_little_mod]
    have hw : 8 * (m + 1) = 8 + 8 * m := by ring
    rw [hw]
    simp only [bitsLE, List.range_add, List.map_append, List.map_map]
    congr 1
    apply List.map_congr_left
    intro j _
    simp only [Function.comp_apply]
    rw [testBit_div256]

theorem frombytes_reverse (bs : List Nat) :
    frombytes .big bs.reverse = (frombytes .little bs).reverse := by
  induction bs with
  | nil => rfl
  | cons v t ih =>
    have hbd : byteDecode .big v = (byteDecode .little v).reverse := by
      show (List.range 8).map (fun j => v.testBit (7 - j)) =
        ((List.range 8).map (fun j => v.testBit j)).reverse
      rfl
    simp only [List.reverse_cons, frombytes_append, ih, frombytes, hbd]
    rw [List.reverse_append]
    simp [frombytes]

theorem frombytes_toBytes_big (m i : Nat) :
    frombytes .big (toBytes .big m i) = bitsBE (8 * m) i := by
  show frombytes .big (toBytesLE m i).reverse = _
  rw [frombytes_reverse, frombytes_toBytesLE, bitsBE_eq_reverse]

theorem frombytes_toBytes_little (m i : Nat) :
    frombytes .little (toBytes .little m i) = bitsLE (8 * m) i :=
  frombytes_toBytesLE m i

theorem testBit_zero_toNat (i : Nat) : (i.testBit 0).toNat = i % 2 := by
  rw [Nat.testBit_zero]
  rcases Nat.mod_two_eq_zero_or_one i with h | h <;> simp [h]

theorem bitsLE_succ (w i : Nat) :
    bitsLE (w + 1) i = i.testBit 0 :: bitsLE w (i / 2) := by
  simp only [bitsLE, List.range_succ_eq_map, List.map_cons, List.map_map]
  congr 1
  apply List.map_congr_left
  intro j _
  simp only [Function.comp_apply]
  rw [Nat.testBit_succ]

theorem bitsVal_bitsLE (w : Nat) : ∀ i : Nat, bitsVal .little (bitsLE w i) = i % 2 ^ w := by
  induction w with
  | zero => intro i; simp [bitsLE, bitsVal, Nat.mod_one]
  | succ w ih =>
    intro i
    rw [bitsLE_succ, bitsVal_little_cons, ih (i / 2), testBit_zero_toNat]
    have : (2 : Nat) ^ (w + 1) = 2 * 2 ^ w := by rw [← pow_succ']
    rw [this, Nat.mod_mul]

theorem bitsBE_succ (w i : Nat) :
    bitsBE (w + 1) i = i.testBit w :: bitsBE w i := by
  rw [bitsBE_eq_reverse, bitsBE_eq_reverse]
  have h1 : bitsLE (w + 1) i = bitsLE w i ++ [i.testBit w] := by
    simp [bitsLE, List.range_succ]
  rw [h1, List.reverse_append]
  simp

theorem bitsVal_big_cons (b : Bool) (l : List Bool) :
    bitsVal .big (b :: l) = b.toNat * 2 ^ l.length + bitsVal .big l := by
  have h := bitsVal_big_append [b] l
  simpa [bitsVal] using h

theorem testBit_toNat_div_mod (i w : Nat) :
    (i.testBit w).toNat = i / 2 ^ w % 2 := by
  rw [Nat.testBit_to_div_mod]
  rcases Nat.mod_two_eq_zero_or_one (i / 2 ^ w) with h | h <;> simp [h]

theorem bitsVal_bitsBE (w : Nat) : ∀ i : Nat, bitsVal .big (bitsBE w i) = i % 2 ^ w := by
  induction w with
  | zero => intro i; simp [bitsBE, bitsVal, Nat.mod_one]
  | succ w ih =>
    intro i
    rw [bitsBE_succ, bitsVal_big_cons, ih i, bitsBE_length, testBit_toNat_div_mod]
    have h1 : (2 : Nat) ^ (w + 1) = 2 ^ w * 2 := by rw [← pow_succ]
    rw [h1, Nat.mod_mul]
    ring

theorem bitsVal_bitsBE_of_lt (w i : Nat) (h : i < 2 ^ w) :
    bitsVal .big (bitsBE w i) = i := by
  rw [bitsVal_bitsBE, Nat.mod_eq_of_lt h]

theorem bitsVal_bitsLE_of_lt (w i : Nat) (h : i < 2 ^ w) :
    bitsVal .little (bitsLE w i) = i := by
  rw [bitsVal_bitsLE, Nat.mod_eq_of_lt h]

/-! `intFromBytes` of `packBytes`: reading a packed buffer as an integer
recovers the bit value. -/

theorem intFromBytes_big_cons (v : Nat) (bs : List Nat) :
    intFromBytes .big (v :: bs) = v * 256 ^ bs.length + intFromBytes .big bs := by
  have key : ∀ (l : List Nat) (acc : Nat),
      l.foldl (fun a x => 256 * a + x) acc =
        acc * 256 ^ l.length + l.foldl (fun a x => 256 * a + x) 0 := by
    intro l
    induction l with
    | nil => intro acc; simp
    | cons y t ih =>
      intro acc
      simp only [List.foldl_cons, List.length_cons]
      rw [ih (256 * acc + y), ih (256 * 0 + y)]
      ring
  show List.foldl (fun a x => 256 * a + x) (256 * 0 + v) bs = _
  rw [key bs (256 * 0 + v)]
  simp only [intFromBytes]
  ring

theorem intFromBytes_little_cons (v : Nat) (bs : List Nat) :
    intFromBytes .little (v :: bs) = v + 256 * intFromBytes .little bs := rfl

theorem packBytes_length (e : Endian) :
    ∀ l : List Bool, l.length % 8 = 0 →
      (packBytes e l).length = l.length / 8
  | [], _ => rfl
  | b0 :: b1 :: b2 :: b3 :: b4 :: b5 :: b6 :: b7 :: rest, h => by
    have hr : rest.length % 8 = 0 := by
      simp only [List.length_cons] at h
      omega
    simp only [packBytes, List.length_cons, packBytes_length e rest hr]
    omega
  | [_], h => by simp at h
  | [_, _], h => by simp at h
  | [_, _, _], h => by simp at h
  | [_, _, _, _], h => by simp at h
  | [_, _, _, _, _], h => by simp at h
  | [_, _, _, _, _, _], h => by simp at h
  | [_, _, _, _, _, _, _], h => by simp at h

theorem intFromBytes_packBytes (e : Endian) :
    ∀ l : List Bool, l.length % 8 = 0 →
      intFromBytes e (packBytes e l) = bitsVal e l
  | [], _ => by cases e <;> rfl
  | b0 :: b1 :: b2 :: b3 :: b4 :: b5 :: b6 :: b7 :: rest, h => by
    have hr : rest.length % 8 = 0 := by
      simp only [List.length_cons] at h
      omega
    have ih := intFromBytes_packBytes e rest hr
    have hsplit : b0 :: b1 :: b2 :: b3 :: b4 :: b5 :: b6 :: b7 :: rest =
        [b0, b1, b2, b3, b4, b5, b6, b7] ++ rest := rfl
    cases e with
    | big =>
      rw [packBytes, intFromBytes_big_cons, ih, hsplit, bitsVal_big_append,
        packBytes_length .big rest hr]
      have h2 : (256 : Nat) ^ (rest.length / 8) = 2 ^ rest.length := by
        have h8 : (256 : Nat) = 2 ^ 8 := by norm_num
        rw [h8, ← pow_mul]
        congr 1
        omega
      rw [h2]
    | little =>
      rw [packBytes, intFromBytes_little_cons, ih, hsplit, bitsVal_little_append]
      norm_num
  | [_], h => by simp at h
  | [_, _], h => by simp at h
  | [_, _, _], h => by simp at h
  | [_, _, _, _], h => by simp at h
  | [_, _, _, _, _], h => by simp at h
  | [_, _, _, _, _, _], h => by simp at h
  | [_, _, _, _, _, _, _], h => by simp at h

/-! Locating the first and last 1 bit. -/

theorem findIdx?_replicate_false_true :
    ∀ (k st : Nat) (post : List Bool),
      List.findIdx? (· = true) (List.replicate k false ++ true :: post) st =
        some (st + k) := by
  intro k
  induction k with
  | zero => intro st post; simp
  | succ k ih =>
    intro st post
    rw [List.replicate_succ]
    simp only [List.cons_append, List.findIdx?_cons]
    rw [if_neg (by simp), ih (st + 1) post]
    congr 1
    omega

theorem findIdx_replicate_false_true (k : Nat) (post : List Bool) :
    List.findIdx (· = true) (List.replicate k false ++ true :: post) = k := by
  induction k with
  | zero => simp [List.findIdx_cons]
  | succ k ih =>
    rw [List.replicate_succ]
    simp only [List.cons_append, List.findIdx_cons]
    rw [ih]
    simp

theorem findIdx?_all_false :
    ∀ (l : List Bool), (∀ b ∈ l, b = false) →
      ∀ st : Nat, List.findIdx? (· = true) l st = none := by
  intro l
  induction l with
  | nil => intro _ st; rfl
  | cons b t ih =>
    intro h st
    have hb : b = false := h b (by simp)
    subst hb
    rw [List.findIdx?_cons, if_neg (by decide)]
    exact ih (fun x hx => h x (by simp [hx])) (st + 1)

theorem take_bitsBE_eq_replicate (w i : Nat) (hw : bitLen i ≤ w) :
    (bitsBE w i).take (w - bitLen i) =
      List.replicate (w - bitLen i) false := by
  apply List.ext_getElem
  · simp [bitsBE_length]
  · intro j h1 h2
    simp only [List.getElem_take, List.getElem_replicate]
    have hlen : j < w := by
      simp only [List.length_take, bitsBE_length] at h1
      omega
    simp only [bitsBE, List.getElem_map, List.getElem_range]
    apply testBit_of_bitLen_le
    simp only [List.length_take, bitsBE_length, List.length_replicate] at h2
    omega

theorem getElem_bitsBE_first (w i : Nat) (hi : 0 < i) (hw : bitLen i ≤ w)
    (h : w - bitLen i < (bitsBE w i).length) :
    (bitsBE w i)[w - bitLen i] = true := by
  have hs := bitLen_pos i hi
  simp only [bitsBE, List.getElem_map, List.getElem_range]
  have : w - 1 - (w - bitLen i) = bitLen i - 1 := by omega
  rw [this]
  exact testBit_bitLen_sub_one i hi

theorem bitsBE_decomp (w i : Nat) (hi : 0 < i) (hw : bitLen i ≤ w) :
    bitsBE w i = List.replicate (w - bitLen i) false ++
      true :: (bitsBE w i).drop (w - bitLen i + 1) := by
  have hs := bitLen_pos i hi
  have hlt : w - bitLen i < (bitsBE w i).length := by
    rw [bitsBE_length]; omega
  conv_lhs => rw [← List.take_append_drop (w - bitLen i) (bitsBE w i)]
  rw [take_bitsBE_eq_replicate w i hw, List.drop_eq_getElem_cons hlt,
    getElem_bitsBE_first w i hi hw hlt]

theorem index1?_bitsBE (w i : Nat) (hi : 0 < i) (hw : bitLen i ≤ w) :
    index1? (bitsBE w i) = some (w - bitLen i) := by
  rw [index1?, bitsBE_decomp w i hi hw]
  have h := findIdx?_replicate_false_true (w - bitLen i) 0
    ((bitsBE w i).drop (w - bitLen i + 1))
  simpa using h

theorem findIdx_bitsBE (w i : Nat) (hi : 0 < i) (hw : bitLen i ≤ w) :
    (bitsBE w i).findIdx (· = true) = w - bitLen i := by
  conv_lhs => rw [bitsBE_decomp w i hi hw]
  exact findIdx_replicate_false_true _ _

theorem bitsLE_reverse (w i : Nat) : (bitsLE w i).reverse = bitsBE w i := by
  rw [bitsBE_eq_reverse]

theorem rindex1?_bitsLE (w i : Nat) (hi : 0 < i) (hw : bitLen i ≤ w) :
    rindex1? (bitsLE w i) = some (bitLen i - 1) := by
  have hs := bitLen_pos i hi
  have h := index1?_bitsBE w i hi hw
  unfold index1? at h
  rw [rindex1?, bitsLE_reverse, h, Option.map_some']
  congr 1
  rw [bitsLE_length]
  omega

theorem drop_bitsLE_eq_replicate (w i : Nat) (hw : bitLen i ≤ w) :
    (bitsLE w i).drop (bitLen i) = List.replicate (w - bitLen i) false := by
  apply List.ext_getElem
  · simp [bitsLE_length]
  · intro j h1 h2
    simp only [List.getElem_drop, List.getElem_replicate]
    simp only [bitsLE, List.getElem_map, List.getElem_range]
    apply testBit_of_bitLen_le
    omega

/-! `ba2int` computes the endianness-weighted value of the bits. -/

theorem ba2int_ok (e : Endian) (bits : List Bool) (h : bits ≠ []) :
    ba2int ⟨bits, e⟩ = .ok (bitsVal e bits) := by
  have hne : bits.isEmpty = false := by
    cases bits with
    | nil => exact absurd rfl h
    | cons b t => rfl
  simp only [ba2int, hne, Bool.false_eq_true, if_false]
  congr 1
  by_cases hm : bits.length % 8 = 0
  · rw [if_neg (by omega)]
    rw [tobytes_of_mod8 e bits hm, intFromBytes_packBytes e bits hm]
  · rw [if_pos (by omega)]
    cases e with
    | big =>
      show intFromBytes .big (tobytes .big
        ((zeros (8 - bits.length % 8) .big).bits ++ bits)) = _
      have hl : ((zeros (8 - bits.length % 8) .big).bits ++ bits).length % 8
          = 0 := by
        simp only [zeros, List.length_append, List.length_replicate]
        omega
      rw [tobytes_of_mod8 _ _ hl, intFromBytes_packBytes _ _ hl]
      show bitsVal .big (List.replicate (8 - bits.length % 8) false ++ bits) = _
      rw [bitsVal_big_replicate_prepend]
    | little =>
      show intFromBytes .little (tobytes .little
        (bits ++ (zeros (8 - bits.length % 8) .little).bits)) = _
      have hl : (bits ++ (zeros (8 - bits.length % 8) .little).bits).length % 8
          = 0 := by
        simp only [zeros, List.length_append, List.length_replicate]
        omega
      rw [tobytes_of_mod8 _ _ hl, intFromBytes_packBytes _ _ hl]
      show bitsVal .little (bits ++ List.replicate (8 - bits.length % 8) false) = _
      rw [bitsVal_little_replicate_append]

/-! Closed forms of `strip` in the cases the integer codec needs. -/

theorem strip_left_eq (e : Endian) (bits : List Bool) (k : Nat)
    (hk : index1? bits = some k) (hlt : k < bits.length) :
    strip ⟨bits, e⟩ .left = ⟨bits.drop k, e⟩ := by
  simp only [strip,
    show (Mode.left = Mode.left ∨ Mode.left = Mode.both) = True by simp,
    show (Mode.left = Mode.right ∨ Mode.left = Mode.both) = False by simp,
    true_or, if_true, if_false, hk]
  congr 1
  rw [List.take_of_length_le]
  rw [List.length_drop]
  omega

theorem strip_right_eq (e : Endian) (bits : List Bool) (r : Nat)
    (hk : rindex1? bits = some r) :
    strip ⟨bits, e⟩ .right = ⟨bits.take (r + 1), e⟩ := by
  simp only [strip,
    show (Mode.right = Mode.left ∨ Mode.right = Mode.both) = False by simp,
    show (Mode.right = Mode.right ∨ Mode.right = Mode.both) = True by simp,
    true_or, if_true, if_false, hk]
  simp

theorem bitsVal_drop_bitsBE (w i : Nat) (hw : bitLen i ≤ w) (hlt : i < 2 ^ w) :
    bitsVal .big ((bitsBE w i).drop (w - bitLen i)) = i := by
  have h1 := List.take_append_drop (w - bitLen i) (bitsBE w i)
  rw [take_bitsBE_eq_replicate w i hw] at h1
  calc bitsVal .big ((bitsBE w i).drop (w - bitLen i))
      = bitsVal .big (List.replicate (w - bitLen i) false ++
          (bitsBE w i).drop (w - bitLen i)) := by
        rw [bitsVal_big_replicate_prepend]
    _ = bitsVal .big (bitsBE w i) := by rw [h1]
    _ = i := bitsVal_bitsBE_of_lt w i hlt

theorem bitsVal_take_bitsLE (w i : Nat) (hw : bitLen i ≤ w) (hlt : i < 2 ^ w) :
    bitsVal .little ((bitsLE w i).take (bitLen i)) = i := by
  have h1 := List.take_append_drop (bitLen i) (bitsLE w i)
  rw [drop_bitsLE_eq_replicate w i hw] at h1
  calc bitsVal .little ((bitsLE w i).take (bitLen i))
      = bitsVal .little ((bitsLE w i).take (bitLen i) ++
          List.replicate (w - bitLen i) false) := by
        rw [bitsVal_little_replicate_append]
    _ = bitsVal .little (bitsLE w i) := by rw [h1]
    _ = i := bitsVal_bitsLE_of_lt w i hlt

/-- C2 helper: facts about the width `8 * bits2bytes (bitLen i)`. -/
theorem width_facts (i : Nat) (hi : 0 < i) :
    1 ≤ bitLen i ∧ bitLen i ≤ 8 * bits2bytes (bitLen i) ∧
      i < 2 ^ (8 * bits2bytes (bitLen i)) := by
  have h1 := bitLen_pos i hi
  have h2 : bitLen i ≤ 8 * bits2bytes (bitLen i) := by
    unfold bits2bytes
    omega
  exact ⟨h1, h2, (bitLen_le_iff i _).mp h2⟩

/-- Claim C2: for every non-negative integer `i` and endianness `e`,
`ba2int (int2ba i endian=e) = i`: the integer round-trip without a fixed
length always returns the original integer. -/
theorem int2ba_ba2int_roundtrip (i : Nat) (e : Endian) :
    (int2ba i none e).bind ba2int = .ok i := by
  show (int2baCore i none e).bind ba2int = .ok i
  by_cases hi : i = 0
  · subst hi
    rw [int2baCore]
    simp only [if_pos rfl]
    show ba2int (zeros 1 e) = .ok 0
    rw [show zeros 1 e = ⟨[false], e⟩ from rfl, ba2int_ok e [false] (by simp)]
    congr 1
    cases e <;> rfl
  · have hi' : 0 < i := Nat.pos_of_ne_zero hi
    obtain ⟨hs1, hsw, hiw⟩ := width_facts i hi'
    simp only [int2baCore, hi, if_false, ite_false]
    cases e with
    | big =>
      rw [frombytes_toBytes_big (bits2bytes (bitLen i)) i]
      simp only [show (Endian.big = Endian.big) = True by simp, if_true,
        ite_true]
      rw [strip_left_eq .big _ (8 * bits2bytes (bitLen i) - bitLen i)
        (index1?_bitsBE _ i hi' hsw) (by rw [bitsBE_length]; omega)]
      show ba2int _ = _
      rw [ba2int_ok .big _ (by
        apply List.ne_nil_of_length_pos
        rw [List.length_drop, bitsBE_length]
        omega)]
      rw [bitsVal_drop_bitsBE _ i hsw hiw]
    | little =>
      rw [frombytes_toBytes_little (bits2bytes (bitLen i)) i]
      simp only [show (Endian.little = Endian.big) = False by simp, if_false,
        ite_false]
      rw [strip_right_eq .little _ (bitLen i - 1)
        (rindex1?_bitsLE _ i hi' hsw)]
      show ba2int _ = _
      have hstake : bitLen i - 1 + 1 = bitLen i := by omega
      rw [hstake]
      rw [ba2int_ok .little _ (by
        apply List.ne_nil_of_length_pos
        rw [List.length_take, bitsLE_length]
        omega)]
      rw [bitsVal_take_bitsLE _ i hsw hiw]

/-! Reshaping big/little bit expansions between widths. -/

theorem take_bitsBE_le (w i k : Nat) (hk : k + bitLen i ≤ w) :
    (bitsBE w i).take k = List.replicate k false := by
  apply List.ext_getElem
  · simp [bitsBE_length]
    omega
  · intro j h1 h2
    simp only [List.getElem_take, List.getElem_replicate]
    simp only [List.length_take, bitsBE_length, List.length_replicate] at h1 h2
    simp only [bitsBE, List.getElem_map, List.getElem_range]
    apply testBit_of_bitLen_le
    omega

theorem drop_bitsLE_le (w i k : Nat) (hk : bitLen i ≤ k) :
    (bitsLE w i).drop k = List.replicate (w - k) false := by
  apply List.ext_getElem
  · simp [bitsLE_length]
  · intro j h1 h2
    simp only [List.getElem_drop, List.getElem_replicate]
    simp only [bitsLE, List.getElem_map, List.getElem_range]
    apply testBit_of_bitLen_le
    omega

theorem drop_bitsBE (w L i : Nat) (hL : L ≤ w) :
    (bitsBE w i).drop (w - L) = bitsBE L i := by
  apply List.ext_getElem
  · simp [bitsBE_length]
    omega
  · intro j h1 h2
    simp only [List.getElem_drop]
    simp only [bitsBE, List.getElem_map, List.getElem_range]
    simp only [List.length_drop, bitsBE_length] at h1
    simp only [bitsBE, List.length_map, List.length_range] at h2
    congr 1
    omega

theorem take_bitsLE (w L i : Nat) (hL : L ≤ w) :
    (bitsLE w i).take L = bitsLE L i := by
  apply List.ext_getElem
  · simp [bitsLE_length]
    omega
  · intro j h1 h2
    simp only [List.getElem_take]
    simp only [bitsLE, List.getElem_map, List.getElem_range]

theorem replicate_append_bitsBE (w L i : Nat) (hw : bitLen i ≤ w) (hL : w ≤ L) :
    List.replicate (L - w) false ++ bitsBE w i = bitsBE L i := by
  have h1 := List.take_append_drop (L - w) (bitsBE L i)
  rw [take_bitsBE_le L i (L - w) (by omega)] at h1
  have h2 : (bitsBE L i).drop (L - w) = bitsBE w i := by
    have := drop_bitsBE L w i hL
    simpa using this
  rw [h2] at h1
  exact h1

theorem bitsLE_append_replicate (w L i : Nat) (hw : bitLen i ≤ w) (hL : w ≤ L) :
    bitsLE w i ++ List.replicate (L - w) false = bitsLE L i := by
  have h1 := List.take_append_drop w (bitsLE L i)
  rw [take_bitsLE L w i hL, drop_bitsLE_le L i w hw] at h1
  exact h1

/-- Closed form of the fixed-length path of `int2ba` when the integer
fits: the result is the width-`L` expansion of `i`. -/
theorem int2baCore_some_ok (i L : Nat) (e : Endian) (hi : 0 < i)
    (hL : bitLen i ≤ L) :
    int2baCore i (some L) e =
      .ok ⟨(match e with | .big => bitsBE L i | .little => bitsLE L i), e⟩ := by
  have hi0 : ¬ i = 0 := by omega
  obtain ⟨hs1, hsw, hiw⟩ := width_facts i hi
  simp only [int2baCore, hi0, if_false, ite_false]
  set w := 8 * bits2bytes (bitLen i) with hw
  cases e with
  | big =>
    rw [frombytes_toBytes_big (bits2bytes (bitLen i)) i, ← hw]
    rw [bitsBE_length]
    simp only [show (Endian.big = Endian.big) = True from by simp, if_true,
      ite_true]
    rcases Nat.lt_trichotomy w L with hcmp | hcmp | hcmp
    · rw [if_neg (by omega), if_neg (by omega)]
      rw [show (zeros (L - w) .big).bits = List.replicate (L - w) false from rfl,
        replicate_append_bitsBE w L i hsw (by omega)]
    · rw [if_pos hcmp]
      rw [hcmp]
    · rw [if_neg (by omega), if_pos (by omega)]
      rw [findIdx_bitsBE w i hi hsw]
      rw [if_neg (by omega)]
      rw [drop_bitsBE w L i (by omega)]
  | little =>
    rw [frombytes_toBytes_little (bits2bytes (bitLen i)) i, ← hw]
    rw [bitsLE_length]
    simp only [show (Endian.little = Endian.big) = False from by simp, if_false,
      ite_false]
    rcases Nat.lt_trichotomy w L with hcmp | hcmp | hcmp
    · rw [if_neg (by omega), if_neg (by omega)]
      rw [show (zeros (L - w) .little).bits = List.replicate (L - w) false from
        rfl, bitsLE_append_replicate w L i hsw (by omega)]
    · rw [if_pos hcmp]
      rw [hcmp]
    · rw [if_neg (by omega), if_pos (by omega)]
      rw [rindex1?_bitsLE w i hi hsw]
      rw [show (some (bitLen i - 1)).getD 0 = bitLen i - 1 from rfl]
      rw [if_neg (by omega)]
      rw [take_bitsLE w L i (by omega)]

/-- Closed form of the fixed-length path of `int2ba` when the integer does
not fit: `OverflowError` reporting the required bits and the given length. -/
theorem int2baCore_some_overflow (i L : Nat) (e : Endian) (hi : 0 < i)
    (hL : L < bitLen i) :
    int2baCore i (some L) e = .error (.overflowError (bitLen i) L) := by
  have hi0 : ¬ i = 0 := by omega
  obtain ⟨hs1, hsw, hiw⟩ := width_facts i hi
  simp only [int2baCore, hi0, if_false, ite_false]
  set w := 8 * bits2bytes (bitLen i) with hw
  cases e with
  | big =>
    rw [frombytes_toBytes_big (bits2bytes (bitLen i)) i, ← hw]
    rw [bitsBE_length]
    simp only [show (Endian.big = Endian.big) = True from by simp, if_true,
      ite_true]
    rw [if_neg (by omega), if_pos (by omega)]
    rw [findIdx_bitsBE w i hi hsw]
    rw [if_pos (by omega)]
    congr 2
    omega
  | little =>
    rw [frombytes_toBytes_little (bits2bytes (bitLen i)) i, ← hw]
    rw [bitsLE_length]
    simp only [show (Endian.little = Endian.big) = False from by simp, if_false,
      ite_false]
    rw [if_neg (by omega), if_pos (by omega)]
    rw [rindex1?_bitsLE w i hi hsw]
    rw [show (some (bitLen i - 1)).getD 0 = bitLen i - 1 from rfl]
    rw [if_pos (by omega)]
    congr 2
    omega

/-- Claim C3: with a positive `length`, every successful `int2ba` result has
exactly `length` bits, and whenever `i < 2 ^ length` the call succeeds with
a `length`-bit result whose `ba2int` value is `i`. -/
theorem int2ba_fixed_length (i L : Nat) (e : Endian) (hL : 0 < L) :
    (∀ a, int2ba i (some L) e = .ok a → a.bits.length = L) ∧
    (i < 2 ^ L → ∃ a, int2ba i (some L) e = .ok a ∧ a.bits.length = L ∧
      ba2int a = .ok i) := by
  have hL0 : ¬ L = 0 := by omega
  have hunfold : int2ba i (some L) e = int2baCore i (some L) e := by
    simp [int2ba, hL0]
  constructor
  · intro a ha
    rw [hunfold] at ha
    by_cases hi : i = 0
    · subst hi
      rw [int2baCore, if_pos rfl] at ha
      have : a = zeros L e := by
        injection ha with h
        exact h.symm
      subst this
      simp [zeros]
    · have hi' := Nat.pos_of_ne_zero hi
      rcases le_or_lt (bitLen i) L with hfit | hover
      · rw [int2baCore_some_ok i L e hi' hfit] at ha
        injection ha with h
        subst h
        cases e <;> simp [bitsBE_length, bitsLE_length]
      · rw [int2baCore_some_overflow i L e hi' hover] at ha
        exact absurd ha (by simp)
  · intro hlt
    rw [hunfold]
    by_cases hi : i = 0
    · subst hi
      refine ⟨zeros L e, ?_, by simp [zeros], ?_⟩
      · rw [int2baCore, if_pos rfl]
        rfl
      · rw [show zeros L e = ⟨List.replicate L false, e⟩ from rfl,
          ba2int_ok e _ (by simp; omega)]
        rw [bitsVal_replicate_false]
    · have hi' := Nat.pos_of_ne_zero hi
      have hfit : bitLen i ≤ L := (bitLen_le_iff i L).mpr hlt
      cases e with
      | big =>
        refine ⟨⟨bitsBE L i, .big⟩, int2baCore_some_ok i L .big hi' hfit,
          by simp [bitsBE_length], ?_⟩
        rw [ba2int_ok .big _ (by
          apply List.ne_nil_of_length_pos
          rw [bitsBE_length]
          omega)]
        rw [bitsVal_bitsBE_of_lt L i hlt]
      | little =>
        refine ⟨⟨bitsLE L i, .little⟩, int2baCore_some_ok i L .little hi' hfit,
          by simp [bitsLE_length], ?_⟩
        rw [ba2int_ok .little _ (by
          apply List.ne_nil_of_length_pos
          rw [bitsLE_length]
          omega)]
        rw [bitsVal_bitsLE_of_lt L i hlt]

/-- Witness for C3 at `i = 5`, `length = 4`, big-endian. -/
theorem int2ba_fixed_length_witness :
    0 < 4 ∧ (5 : Nat) < 2 ^ 4 ∧ (∃ a, int2ba 5 (some 4) .big = .ok a ∧
      a.bits.length = 4 ∧ ba2int a = .ok 5) :=
  ⟨by norm_num, by norm_num,
    (int2ba_fixed_length 5 4 .big (by norm_num)).2 (by norm_num)⟩

/-- Claim C4: for positive `i` with a fixed positive `length`, `int2ba`
fails with `OverflowError` reporting both the required bit count and the
requested length exactly when the significant bits of `i` exceed `length`;
a successful call implies the significant bits fit. -/
theorem int2ba_overflow (i L : Nat) (e : Endian) (hi : 0 < i) (hL : 0 < L) :
    (L < bitLen i →
      int2ba i (some L) e = .error (.overflowError (bitLen i) L)) ∧
    (∀ a, int2ba i (some L) e = .ok a → bitLen i ≤ L) := by
  have hL0 : ¬ L = 0 := by omega
  have hunfold : int2ba i (some L) e = int2baCore i (some L) e := by
    simp [int2ba, hL0]
  constructor
  · intro h
    rw [hunfold]
    exact int2baCore_some_overflow i L e hi h
  · intro a ha
    by_contra hc
    push_neg at hc
    rw [hunfold, int2baCore_some_overflow i L e hi hc] at ha
    exact absurd ha (by simp)

/-- Witness for C4: `int2ba 256 (length 4)` raises
`OverflowError("cannot represent 9 bit integer in 4 bits")`. -/
theorem int2ba_overflow_witness :
    0 < 256 ∧ 0 < 4 ∧
      int2ba 256 (some 4) .big = .error (.overflowError 9 4) := by
  refine ⟨by norm_num, by norm_num, ?_⟩
  have h := (int2ba_overflow 256 4 .big (by norm_num) (by norm_num)).1
    (by decide)
  rw [show bitLen 256 = 9 from rfl] at h
  exact h

/-! `make_endian`: the byte-buffer dance preserves the logical bits. -/

set_option maxRecDepth 40000 in
theorem byteDecode_little_reverse8 (v : Nat) (h : v < 256) :
    byteDecode .little (reverse8 v) = byteDecode .big v := by
  revert v
  decide

set_option maxRecDepth 40000 in
theorem byteDecode_big_reverse8 (v : Nat) (h : v < 256) :
    byteDecode .big (reverse8 v) = byteDecode .little v := by
  revert v
  decide

theorem frombytes_map_reverse8 (e e' : Endian) (h : e ≠ e') :
    ∀ bs : List Nat, (∀ v ∈ bs, v < 256) →
      frombytes e' (bs.map reverse8) = frombytes e bs := by
  intro bs
  induction bs with
  | nil => intro _; rfl
  | cons v t ih =>
    intro hb
    have hv : v < 256 := hb v (by simp)
    have ht := ih (fun x hx => hb x (by simp [hx]))
    simp only [List.map_cons, frombytes, ht]
    congr 1
    cases e with
    | big =>
      cases e' with
      | big => exact absurd rfl h
      | little => exact byteDecode_little_reverse8 v hv
    | little =>
      cases e' with
      | big => exact byteDecode_big_reverse8 v hv
      | little => exact absurd rfl h

theorem tobytes_mem_lt (e : Endian) (l : List Bool) :
    ∀ v ∈ tobytes e l, v < 256 := by
  intro v hv
  exact packBytes_mem_lt e _ v hv

/-- The different-endianness path of `make_endian` keeps the logical bits
and only changes the endianness tag. -/
theorem make_endian_diff (a : BitSeq) (e : Endian) (h : ¬ a.endian = e) :
    make_endian a e = ⟨a.bits, e⟩ := by
  rw [make_endian, if_neg h]
  simp only []
  by_cases h0 : a.bits.length = 0
  · rw [if_pos h0]
    have : a.bits = [] := List.eq_nil_of_length_eq_zero h0
    rw [h0, this]
    simp
  · rw [if_neg h0]
    have hfb : frombytes e ((tobytes a.endian a.bits).map reverse8) =
        a.bits ++ List.replicate ((8 - a.bits.length % 8) % 8) false := by
      rw [frombytes_map_reverse8 a.endian e (fun hc => h hc) _
        (tobytes_mem_lt a.endian a.bits)]
      exact frombytes_tobytes a.endian a.bits
    have htake : (frombytes e ((tobytes a.endian a.bits).map reverse8)).take
        a.bits.length = a.bits := by
      rw [hfb]
      exact List.take_left a.bits _
    by_cases hm : a.bits.length % 8 ≠ 0
    · rw [if_pos hm]
      rw [htake]
      congr 1
      exact List.take_append_drop _ a.bits
    · rw [if_neg hm]
      rw [htake]

/-- Claim C6: for a big-endian `s`, converting to little-endian and back
to big-endian returns a BitSeq value-equal to `s` (the whole bytes are
bit-reversed in the buffer, the trailing partial byte re-copied). -/
theorem make_endian_roundtrip (s : BitSeq) (h : s.endian = .big) :
    make_endian (make_endian s .little) .big = s := by
  have h1 : make_endian s .little = ⟨s.bits, .little⟩ :=
    make_endian_diff s .little (by rw [h]; simp)
  rw [h1]
  have h2 : make_endian ⟨s.bits, .little⟩ .big = ⟨s.bits, .big⟩ :=
    make_endian_diff ⟨s.bits, .little⟩ .big (by simp)
  rw [h2]
  obtain ⟨bits, en⟩ := s
  simp only at h
  rw [h]

/-- Witness for C6 on a 3-bit (partial-byte) big-endian input. -/
theorem make_endian_roundtrip_witness :
    (⟨[true, false, true], .big⟩ : BitSeq).endian = .big ∧
      make_endian (make_endian ⟨[true, false, true], .big⟩ .little) .big =
        ⟨[true, false, true], .big⟩ :=
  ⟨rfl, make_endian_roundtrip ⟨[true, false, true], .big⟩ rfl⟩

/-- Claim C7: `strip` of an all-zero (or empty) bitarray returns an empty
bitarray with the input's endianness, for every mode, without an error. -/
theorem strip_all_zeros (a : BitSeq) (mode : Mode)
    (h : ∀ b ∈ a.bits, b = false) :
    strip a mode = ⟨[], a.endian⟩ := by
  have hfind : index1? a.bits = none := by
    rw [index1?]
    exact findIdx?_all_false a.bits h 0
  have hrind : rindex1? a.bits = none := by
    rw [rindex1?,
      findIdx?_all_false a.bits.reverse
        (fun b hb => h b (List.mem_reverse.mp hb)) 0]
    rfl
  cases mode with
  | left =>
    simp only [strip,
      show (Mode.left = Mode.left ∨ Mode.left = Mode.both) = True by simp,
      true_or, if_true, hfind]
  | right =>
    simp only [strip,
      show (Mode.right = Mode.left ∨ Mode.right = Mode.both) = False by simp,
      show (Mode.right = Mode.right ∨ Mode.right = Mode.both) = True by simp,
      true_or, if_true, if_false, hrind]
  | both =>
    simp only [strip,
      show (Mode.both = Mode.left ∨ Mode.both = Mode.both) = True by simp,
      or_true, if_true, hfind]

/-- Witness for C7: `strip(zeros(8), 'both')` is the empty bitarray. -/
theorem strip_all_zeros_witness :
    (∀ b ∈ (zeros 8 .big).bits, b = false) ∧
      strip (zeros 8 .big) .both = ⟨[], .big⟩ :=
  ⟨by decide, strip_all_zeros (zeros 8 .big) .both (by decide)⟩

/-! Huffman code: heap permutation invariants and prefix-freeness. -/

theorem popMin_eq_none_iff {α : Type} (l : List (HNode α)) :
    popMin l = none ↔ l = [] := by
  cases l with
  | nil => simp [popMin]
  | cons x t =>
    cases t with
    | nil => simp [popMin]
    | cons y t' =>
      constructor
      · intro h
        rw [popMin] at h
        rcases hp : popMin (y :: t') with _ | p
        · rw [hp] at h
          exact absurd h (by simp)
        · obtain ⟨m, rest⟩ := p
          rw [hp] at h
          dsimp only [] at h
          by_cases hf : m.freq < x.freq
          · rw [if_pos hf] at h
            exact absurd h (by simp)
          · rw [if_neg hf] at h
            exact absurd h (by simp)
      · intro h
        exact absurd h (by simp)

theorem popMin_perm {α : Type} :
    ∀ (l : List (HNode α)) (m : HNode α) (rest : List (HNode α)),
      popMin l = some (m, rest) → l.Perm (m :: rest)
  | [], m, rest => by simp [popMin]
  | [x], m, rest => by
    intro h
    rw [popMin] at h
    cases h
    exact List.Perm.refl _
  | x :: y :: t, m, rest => by
    intro h
    rw [popMin] at h
    rcases hp : popMin (y :: t) with _ | p
    · rw [hp] at h
      dsimp only [] at h
      cases h
      exact List.Perm.refl _
    · obtain ⟨m', rest'⟩ := p
      rw [hp] at h
      dsimp only [] at h
      by_cases hf : m'.freq < x.freq
      · rw [if_pos hf] at h
        cases h
        exact ((popMin_perm (y :: t) _ _ hp).cons x).trans
          (List.Perm.swap _ x _)
      · rw [if_neg hf] at h
        cases h
        exact List.Perm.refl _

theorem popMin_length {α : Type} (l : List (HNode α)) (m : HNode α)
    (rest : List (HNode α)) (h : popMin l = some (m, rest)) :
    l.length = rest.length + 1 := by
  have hp := popMin_perm l m rest h
  have := hp.length_eq
  simpa using this

theorem leavesOf_append {α : Type} (l1 l2 : List (HNode α)) :
    leavesOf (l1 ++ l2) = leavesOf l1 ++ leavesOf l2 := by
  simp [leavesOf]

theorem huffLoop_leaves_perm {α : Type} :
    ∀ (fuel : Nat) (l : List (HNode α)),
      (leavesOf (huffLoop fuel l)).Perm (leavesOf l) := by
  intro fuel
  induction fuel with
  | zero => intro l; exact List.Perm.refl _
  | succ fuel ih =>
    intro l
    rw [huffLoop]
    by_cases hlen : l.length ≤ 1
    · rw [if_pos hlen]
    · rw [if_neg hlen]
      rcases hp0 : popMin l with _ | ⟨c0, l1⟩
      · exact List.Perm.refl _
      · dsimp only []
        rcases hp1 : popMin l1 with _ | ⟨c1, l2⟩
        · exact List.Perm.refl _
        · dsimp only []
          have hperm0 := popMin_perm l c0 l1 hp0
          have hperm1 := popMin_perm l1 c1 l2 hp1
          have hlv0 : (leavesOf l).Perm (HNode.leaves c0 ++ leavesOf l1) :=
            hperm0.flatMap_right HNode.leaves
          have hlv1 : (leavesOf l1).Perm (HNode.leaves c1 ++ leavesOf l2) :=
            hperm1.flatMap_right HNode.leaves
          refine (ih _).trans ?_
          rw [leavesOf_append]
          have hstep : (leavesOf l2 ++
              leavesOf [HNode.parent c0 c1 (c0.freq + c1.freq)]).Perm
              (HNode.leaves c0 ++ (HNode.leaves c1 ++ leavesOf l2)) := by
            have h1 : leavesOf [HNode.parent c0 c1 (c0.freq + c1.freq)] =
                HNode.leaves c0 ++ HNode.leaves c1 := by
              simp [leavesOf, HNode.leaves]
            rw [h1]
            have h2 : (HNode.leaves c0 ++ HNode.leaves c1) ++ leavesOf l2 =
                HNode.leaves c0 ++ (HNode.leaves c1 ++ leavesOf l2) :=
              List.append_assoc _ _ _
            exact h2 ▸ List.perm_append_comm
          refine hstep.trans ?_
          have h3 : (HNode.leaves c0 ++ (HNode.leaves c1 ++ leavesOf l2)).Perm
              (HNode.leaves c0 ++ leavesOf l1) :=
            (List.Perm.append_left (HNode.leaves c0) hlv1).symm
          exact h3.trans hlv0.symm

theorem huffLoop_ne_nil {α : Type} :
    ∀ (fuel : Nat) (l : List (HNode α)), l ≠ [] → huffLoop fuel l ≠ [] := by
  intro fuel
  induction fuel with
  | zero => intro l h; exact h
  | succ fuel ih =>
    intro l h
    rw [huffLoop]
    by_cases hlen : l.length ≤ 1
    · rw [if_pos hlen]; exact h
    · rw [if_neg hlen]
      rcases hp0 : popMin l with _ | ⟨c0, l1⟩
      · exact h
      · dsimp only []
        rcases hp1 : popMin l1 with _ | ⟨c1, l2⟩
        · exact h
        · dsimp only []
          exact ih _ (by simp)

theorem huffLoop_length_le_one {α : Type} :
    ∀ (fuel : Nat) (l : List (HNode α)), l.length ≤ fuel + 1 →
      (huffLoop fuel l).length ≤ 1 := by
  intro fuel
  induction fuel with
  | zero =>
    intro l h
    exact h
  | succ fuel ih =>
    intro l h
    rw [huffLoop]
    by_cases hlen : l.length ≤ 1
    · rw [if_pos hlen]; exact hlen
    · rw [if_neg hlen]
      rcases hp0 : popMin l with _ | ⟨c0, l1⟩
      · rw [popMin_eq_none_iff] at hp0
        subst hp0
        simp at hlen
      · dsimp only []
        have hl1 := popMin_length l c0 l1 hp0
        rcases hp1 : popMin l1 with _ | ⟨c1, l2⟩
        · rw [popMin_eq_none_iff] at hp1
          subst hp1
          simp at hl1
          omega
        · dsimp only []
          have hl2 := popMin_length l1 c1 l2 hp1
          apply ih
          simp only [List.length_append, List.length_cons, List.length_nil]
          omega

/-! `traverse`: codes extend the prefix; distinct leaves get
non-prefixing codes. -/

theorem traverseCode_map_fst {α : Type} (e : Endian) :
    ∀ (nd : HNode α) (pre : List Bool),
      (traverseCode e nd pre).map Prod.fst = nd.leaves
  | .leaf s f, pre => by simp [traverseCode, HNode.leaves]
  | .parent c0 c1 f, pre => by
    simp only [traverseCode, HNode.leaves, List.map_append,
      traverseCode_map_fst e c0 (pre ++ [false]),
      traverseCode_map_fst e c1 (pre ++ [true])]

theorem traverseCode_extends {α : Type} (e : Endian) :
    ∀ (nd : HNode α) (pre : List Bool) (p : α × BitSeq),
      p ∈ traverseCode e nd pre → pre <+: p.2.bits
  | .leaf s f, pre, p => by
    intro hp
    simp only [traverseCode, List.mem_singleton] at hp
    subst hp
    exact List.prefix_refl pre
  | .parent c0 c1 f, pre, p => by
    intro hp
    simp only [traverseCode, List.mem_append] at hp
    rcases hp with hp | hp
    · exact (List.prefix_append pre [false]).trans
        (traverseCode_extends e c0 (pre ++ [false]) p hp)
    · exact (List.prefix_append pre [true]).trans
        (traverseCode_extends e c1 (pre ++ [true]) p hp)

theorem traverseCode_prefix_free {α : Type} (e : Endian) :
    ∀ (nd : HNode α) (pre : List Bool) (p q : α × BitSeq),
      p ∈ traverseCode e nd pre → q ∈ traverseCode e nd pre →
      p.1 ≠ q.1 → ¬ (p.2.bits <+: q.2.bits)
  | .leaf s f, pre, p, q => by
    intro hp hq hne
    simp only [traverseCode, List.mem_singleton] at hp hq
    subst hp
    subst hq
    exact absurd rfl hne
  | .parent c0 c1 f, pre, p, q => by
    intro hp hq hne hpre
    simp only [traverseCode, List.mem_append] at hp hq
    rcases hp with hp | hp <;> rcases hq with hq | hq
    · exact traverseCode_prefix_free e c0 (pre ++ [false]) p q hp hq hne hpre
    · have h1 := traverseCode_extends e c0 (pre ++ [false]) p hp
      have h2 := traverseCode_extends e c1 (pre ++ [true]) q hq
      have h3 : (pre ++ [false]) <+: q.2.bits := h1.trans hpre
      have h4 := List.prefix_of_prefix_length_le h3 h2 (by simp)
      have h5 : pre ++ [false] = pre ++ [true] :=
        h4.sublist.eq_of_length (by simp)
      simp at h5
    · have h1 := traverseCode_extends e c1 (pre ++ [true]) p hp
      have h2 := traverseCode_extends e c0 (pre ++ [false]) q hq
      have h3 : (pre ++ [true]) <+: q.2.bits := h1.trans hpre
      have h4 := List.prefix_of_prefix_length_le h3 h2 (by simp)
      have h5 : pre ++ [true] = pre ++ [false] :=
        h4.sublist.eq_of_length (by simp)
      simp at h5
    · exact traverseCode_prefix_free e c1 (pre ++ [true]) p q hp hq hne hpre

theorem leavesOf_map_leaf {α : Type} (fm : List (α × Nat)) :
    leavesOf (fm.map (fun p => HNode.leaf p.1 p.2)) = fm.map Prod.fst := by
  induction fm with
  | nil => rfl
  | cons p t ih =>
    simp only [List.map_cons, leavesOf, List.flatMap_cons] at ih ⊢
    rw [ih]
    rfl

/-- Claim C8: for every non-empty frequency map (with the distinct keys of
a Python dict), `huffman_code` succeeds, its result has exactly one entry
per distinct input symbol, and no code is a prefix of another entry's
code. -/
theorem huffman_code_sound {α : Type} (fm : List (α × Nat)) (e : Endian)
    (hne : fm ≠ []) (hnd : (fm.map Prod.fst).Nodup) :
    ∃ res, huffman_code fm e = .ok res ∧
      (res.map Prod.fst).Perm (fm.map Prod.fst) ∧
      ∀ p ∈ res, ∀ q ∈ res, p.1 ≠ q.1 → ¬ (p.2.bits <+: q.2.bits) := by
  have hfme : fm.isEmpty = false := by
    cases fm with
    | nil => exact absurd rfl hne
    | cons p t => rfl
  have hmne : fm.map (fun p => HNode.leaf p.1 p.2) ≠ [] := by
    cases fm with
    | nil => exact absurd rfl hne
    | cons p t => simp
  have hr := huffLoop_ne_nil (α := α)
    (fm.map (fun p => HNode.leaf p.1 p.2)).length
    (fm.map (fun p => HNode.leaf p.1 p.2)) hmne
  rcases hloop : huffLoop (fm.map (fun p => HNode.leaf p.1 p.2)).length
      (fm.map (fun p => HNode.leaf p.1 p.2)) with _ | ⟨root, tl⟩
  · exact absurd hloop hr
  · have hlen1 := huffLoop_length_le_one (α := α)
      (fm.map (fun p => HNode.leaf p.1 p.2)).length
      (fm.map (fun p => HNode.leaf p.1 p.2)) (by omega)
    rw [hloop] at hlen1
    have htl : tl = [] := by
      simp only [List.length_cons] at hlen1
      exact List.eq_nil_of_length_eq_zero (by omega)
    subst htl
    refine ⟨traverseCode e root [], ?_, ?_, ?_⟩
    · simp only [huffman_code, hfme, Bool.false_eq_true, if_false, hloop]
    · rw [traverseCode_map_fst]
      have h1 := huffLoop_leaves_perm (α := α)
        (fm.map (fun p => HNode.leaf p.1 p.2)).length
        (fm.map (fun p => HNode.leaf p.1 p.2))
      rw [hloop] at h1
      have h2 : leavesOf [root] = root.leaves := by simp [leavesOf]
      rw [h2, leavesOf_map_leaf] at h1
      exact h1
    · intro p hp q hq hne'
      exact traverseCode_prefix_free e root [] p q hp hq hne'

/-- Witness for C8 on the two-symbol map `{'a': 1, 'b': 2}`. -/
theorem huffman_code_sound_witness :
    ([('a', (1 : Nat)), ('b', 2)] : List (Char × Nat)) ≠ [] ∧
      ∃ res, huffman_code [('a', (1 : Nat)), ('b', 2)] Endian.big = .ok res ∧
        (res.map Prod.fst).Perm
          (([('a', (1 : Nat)), ('b', 2)] : List (Char × Nat)).map Prod.fst) ∧
        ∀ p ∈ res, ∀ q ∈ res, p.1 ≠ q.1 → ¬ (p.2.bits <+: q.2.bits) :=
  ⟨by simp, huffman_code_sound [('a', 1), ('b', 2)] .big (by simp) (by simp)⟩

/-- Counterexample to claim C1: a single-symbol frequency map yields the
empty (0-bit) code, not a single-bit code. -/
theorem huffman_code_single_counterexample :
    huffman_code [('a', 5)] Endian.big = .ok [('a', ⟨[], .big⟩)] ∧
      (BitSeq.mk [] Endian.big).bits.length ≠ 1 :=
  ⟨rfl, by decide⟩

/-- Claim C1 as amended: for every frequency map with exactly one symbol,
`huffman_code` binds that symbol to the empty bitarray (a 0-bit code),
since the lone leaf is the tree root and is reached with the empty
prefix. -/
theorem huffman_code_single {α : Type} (s0 : α) (f : Nat) (e : Endian) :
    huffman_code [(s0, f)] e = .ok [(s0, ⟨[], e⟩)] := rfl

/-! Hex codec lemmas. -/

theorem hexlify_cons (v : Nat) (bs : List Nat) :
    hexlify (v :: bs) =
      Nat.digitChar (v / 16) :: Nat.digitChar (v % 16) :: hexlify bs := by
  simp [hexlify]

theorem hexlify_length (bs : List Nat) : (hexlify bs).length = 2 * bs.length := by
  induction bs with
  | nil => rfl
  | cons v t ih =>
    rw [hexlify_cons]
    simp only [List.length_cons, ih]
    ring

theorem hexCharVal?_digitChar : ∀ v : Nat, v < 16 →
    hexCharVal? (Nat.digitChar v) = some v := by
  decide

set_option maxRecDepth 40000 in
theorem swapNib_swapNib : ∀ v : Nat, v < 256 → swapNib (swapNib v) = v := by
  decide

set_option maxRecDepth 40000 in
theorem swapNib_lt : ∀ v : Nat, v < 256 → swapNib v < 256 := by
  decide

theorem unhexlify_hexlify :
    ∀ bs : List Nat, (∀ v ∈ bs, v < 256) → unhexlify (hexlify bs) = .ok bs := by
  intro bs
  induction bs with
  | nil => intro _; rfl
  | cons v t ih =>
    intro hb
    have hv : v < 256 := hb v (by simp)
    rw [hexlify_cons]
    show (match hexCharVal? (Nat.digitChar (v / 16)),
        hexCharVal? (Nat.digitChar (v % 16)) with
      | some v1, some v2 =>
        (unhexlify (hexlify t)).map (fun bs => (16 * v1 + v2) :: bs)
      | _, _ => .error .valueError) = .ok (v :: t)
    rw [hexCharVal?_digitChar (v / 16) (by omega),
      hexCharVal?_digitChar (v % 16) (by omega)]
    rw [ih (fun x hx => hb x (by simp [hx]))]
    show Except.ok ((16 * (v / 16) + v % 16) :: t) = .ok (v :: t)
    have hvv : 16 * (v / 16) + v % 16 = v := by omega
    rw [hvv]

theorem unhexlify_hexlify_dropLast :
    ∀ (bs : List Nat) (hne : bs ≠ []), (∀ v ∈ bs, v < 256) →
      unhexlify ((hexlify bs).dropLast ++ ['0']) =
        .ok (bs.dropLast ++ [16 * (bs.getLast hne / 16)])
  | [], hne, _ => absurd rfl hne
  | [v], _, hb => by
    have hv : v < 256 := hb v (by simp)
    rw [hexlify_cons]
    show (match hexCharVal? (Nat.digitChar (v / 16)), hexCharVal? '0' with
      | some v1, some v2 => (unhexlify []).map (fun bs => (16 * v1 + v2) :: bs)
      | _, _ => .error .valueError) = _
    rw [hexCharVal?_digitChar (v / 16) (by omega)]
    rfl
  | v :: b :: t, hcne, hb => by
    have hv : v < 256 := hb v (by simp)
    have ih := unhexlify_hexlify_dropLast (b :: t) (by simp)
      (fun x hx => hb x (by simp at hx; rcases hx with h | h <;> simp [h]))
    rw [hexlify_cons]
    have hne2 : hexlify (b :: t) ≠ [] := by
      rw [hexlify_cons]
      simp
    rw [show (Nat.digitChar (v / 16) :: Nat.digitChar (v % 16) ::
        hexlify (b :: t)).dropLast =
      Nat.digitChar (v / 16) :: Nat.digitChar (v % 16) ::
        (hexlify (b :: t)).dropLast from by
      cases hhl : hexlify (b :: t) with
      | nil => exact absurd hhl hne2
      | cons c cs => rw [List.dropLast_cons₂, List.dropLast_cons₂]]
    show (match hexCharVal? (Nat.digitChar (v / 16)),
        hexCharVal? (Nat.digitChar (v % 16)) with
      | some v1, some v2 =>
        (unhexlify ((hexlify (b :: t)).dropLast ++ ['0'])).map
          (fun bs => (16 * v1 + v2) :: bs)
      | _, _ => .error .valueError) = _
    rw [hexCharVal?_digitChar (v / 16) (by omega),
      hexCharVal?_digitChar (v % 16) (by omega), ih]
    show Except.ok ((16 * (v / 16) + v % 16) ::
      ((b :: t).dropLast ++ [16 * ((b :: t).getLast (by simp) / 16)])) = _
    have hvv : 16 * (v / 16) + v % 16 = v := by omega
    rw [hvv]
    rw [show (v :: b :: t).dropLast = v :: (b :: t).dropLast from
      List.dropLast_cons₂]
    rfl

set_option maxRecDepth 40000 in
theorem byteDecode_big_zeroLow (v : Nat) (h : v < 256) :
    (byteDecode .big (16 * (v / 16))).take 4 = (byteDecode .big v).take 4 := by
  revert v
  decide

set_option maxRecDepth 40000 in
theorem byteDecode_little_zeroHigh (v : Nat) (h : v < 256) :
    (byteDecode .little (v % 16)).take 4 = (byteDecode .little v).take 4 := by
  revert v
  decide

set_option maxRecDepth 40000 in
theorem swapNib_zero_then (v : Nat) (h : v < 256) :
    swapNib (16 * (swapNib v / 16)) = v % 16 := by
  revert v
  decide

theorem map_swapNib_mem_lt (bs : List Nat) (h : ∀ v ∈ bs, v < 256) :
    ∀ v ∈ bs.map swapNib, v < 256 := by
  intro v hv
  rw [List.mem_map] at hv
  obtain ⟨x, hx, hxe⟩ := hv
  subst hxe
  exact swapNib_lt x (h x hx)

theorem map_swapNib_swapNib (bs : List Nat) (h : ∀ v ∈ bs, v < 256) :
    (bs.map swapNib).map swapNib = bs := by
  induction bs with
  | nil => rfl
  | cons v t ih =>
    simp only [List.map_cons, List.cons.injEq]
    exact ⟨swapNib_swapNib v (h v (by simp)),
      ih (fun x hx => h x (by simp [hx]))⟩

/-- Unfolding of `ba2hex` when the length is a multiple of 8. -/
theorem ba2hex_aligned (bits : List Bool) (e : Endian) (junk : List Bool)
    (h8 : bits.length % 8 = 0) :
    ba2hex ⟨bits, e⟩ junk =
      .ok (hexlify (if e = .little then (packBytes e bits).map swapNib
        else packBytes e bits)) := by
  rw [ba2hex]
  rw [if_neg (by omega : ¬ bits.length % 4 ≠ 0)]
  simp only [eq_false (by omega : ¬ bits.length % 8 ≠ 0), if_false,
    ite_false]
  rw [tobytes_of_mod8 e bits h8]

/-- Unfolding of `ba2hex` when the length is a multiple of 4 but not 8. -/
theorem ba2hex_unaligned (bits : List Bool) (e : Endian) (junk : List Bool)
    (h4 : bits.length % 4 = 0) (h8 : bits.length % 8 ≠ 0) :
    ba2hex ⟨bits, e⟩ junk =
      .ok ((hexlify (if e = .little then (tobytes e (bits ++ junk)).map swapNib
        else tobytes e (bits ++ junk))).dropLast) := by
  rw [ba2hex]
  rw [if_neg (by omega : ¬ bits.length % 4 ≠ 0)]
  simp only [eq_true (show bits.length % 8 ≠ 0 from h8), if_true, ite_true]

/-- Unfolding of `hex2baCore` for an even-length hex string. -/
theorem hex2baCore_even (cs : List Char) (e : Endian)
    (h : ¬ cs.length % 2 = 1) (b : List Nat) (hu : unhexlify cs = .ok b) :
    hex2baCore cs e =
      .ok ⟨frombytes e (if e = .little then b.map swapNib else b), e⟩ := by
  rw [hex2baCore]
  simp only [eq_false h, if_false, ite_false]
  rw [hu]

/-- Unfolding of `hex2baCore` for an odd-length hex string. -/
theorem hex2baCore_odd (cs : List Char) (e : Endian)
    (h : cs.length % 2 = 1) (b : List Nat)
    (hu : unhexlify (cs ++ ['0']) = .ok b) :
    hex2baCore cs e =
      .ok ⟨(frombytes e (if e = .little then b.map swapNib else b)).take
        ((frombytes e (if e = .little then b.map swapNib else b)).length - 4),
        e⟩ := by
  rw [hex2baCore]
  simp only [eq_true h, if_true, ite_true]
  rw [hu]

theorem frombytes_singleton (e : Endian) (x : Nat) :
    frombytes e [x] = byteDecode e x := by
  simp [frombytes]

theorem take_sub4 (e : Endian) (A : List Bool) (x : Nat) (n : Nat)
    (hA : A.length = n - 4) (hn : 4 ≤ n) :
    (A ++ byteDecode e x).take ((A ++ byteDecode e x).length - 4) =
      A ++ (byteDecode e x).take 4 := by
  have hd := byteDecode_length e x
  rw [List.length_append, hA, hd]
  have h1 : n - 4 + 8 - 4 = n := by omega
  rw [h1]
  rw [List.take_append_eq_append_take]
  rw [List.take_of_length_le (by omega : A.length ≤ n)]
  have h2 : n - A.length = 4 := by omega
  rw [h2]

/-- Claim C5: for every BitSeq whose length is a multiple of 4 (and any
contents of the uninitialized 4-bit pad appended when the length is not a
multiple of 8), `hex2ba (ba2hex s) (endian := s.endian)` returns `s`. -/
theorem ba2hex_hex2ba_roundtrip (s : BitSeq) (junk : List Bool)
    (h4 : s.bits.length % 4 = 0) (hj : junk.length = 4) :
    (ba2hex s junk).bind (fun cs => hex2ba (.str cs) s.endian) = .ok s := by
  obtain ⟨bits, e⟩ := s
  simp only at h4
  by_cases h8 : bits.length % 8 = 0
  · -- length a multiple of 8: the pad nibble machinery is not used
    rw [ba2hex_aligned bits e junk h8]
    show hex2ba (.str _) e = _
    have hmem := packBytes_mem_lt e
      (bits ++ List.replicate ((8 - bits.length % 8) % 8) false)
    have hmem' : ∀ v ∈ packBytes e bits, v < 256 := by
      intro v hv
      exact packBytes_mem_lt e bits v hv
    cases e with
    | big =>
      show hex2baCore _ .big = _
      rw [hex2baCore_even _ .big
        (by rw [hexlify_length, if_neg (by simp)]; omega)
        (packBytes .big bits)
        (by rw [if_neg (by simp)]; exact unhexlify_hexlify _ hmem')]
      rw [if_neg (by simp)]
      rw [frombytes_packBytes .big bits h8]
    | little =>
      show hex2baCore _ .little = _
      rw [hex2baCore_even _ .little
        (by rw [hexlify_length, if_pos rfl]; omega)
        ((packBytes .little bits).map swapNib)
        (by rw [if_pos rfl]
            exact unhexlify_hexlify _ (map_swapNib_mem_lt _ hmem'))]
      rw [if_pos rfl, map_swapNib_swapNib _ hmem']
      rw [frombytes_packBytes .little bits h8]
  · -- length ≡ 4 (mod 8): a junk nibble is appended and dropped again
    have h84 : bits.length % 8 = 4 := by omega
    have habl : (bits ++ junk).length % 8 = 0 := by
      rw [List.length_append, hj]
      omega
    have htb : tobytes e (bits ++ junk) = packBytes e (bits ++ junk) :=
      tobytes_of_mod8 e (bits ++ junk) habl
    set b0 := packBytes e (bits ++ junk) with hb0def
    have hb0len : b0.length = (bits.length + 4) / 8 := by
      rw [hb0def, packBytes_length e _ habl, List.length_append, hj]
    have hb0pos : 0 < b0.length := by
      rw [hb0len]
      omega
    have hb0ne : b0 ≠ [] := List.ne_nil_of_length_pos hb0pos
    have hmem0 : ∀ v ∈ b0, v < 256 := fun v hv => packBytes_mem_lt e _ v hv
    have hglt : b0.getLast hb0ne < 256 :=
      hmem0 _ (List.getLast_mem hb0ne)
    have hdlmem : ∀ v ∈ b0.dropLast, v < 256 := by
      intro v hv
      exact hmem0 v (List.dropLast_sublist b0 |>.mem hv)
    -- the bits of the input, recovered from the packed buffer
    have habits : bits ++ junk =
        frombytes e b0.dropLast ++ byteDecode e (b0.getLast hb0ne) := by
      conv_lhs => rw [← frombytes_packBytes e (bits ++ junk) habl, ← hb0def]
      conv_lhs => rw [← List.dropLast_append_getLast hb0ne]
      rw [frombytes_append, frombytes_singleton]
    have hfdl_len : (frombytes e b0.dropLast).length = bits.length - 4 := by
      rw [frombytes_length, List.length_dropLast, hb0len]
      omega
    have hbits : bits = frombytes e b0.dropLast ++
        (byteDecode e (b0.getLast hb0ne)).take 4 := by
      have h1 : bits = (bits ++ junk).take bits.length := by
        rw [List.take_left]
      rw [h1, habits]
      rw [List.take_append_eq_append_take]
      rw [List.take_of_length_le (by omega : (frombytes e b0.dropLast).length ≤
        bits.length)]
      congr 1
      congr 1
      omega
    rw [ba2hex_unaligned bits e junk h4 h8, htb]
    show hex2ba (.str _) e = _
    cases e with
    | big =>
      show hex2baCore _ .big = _
      rw [if_neg (by simp)]
      rw [hex2baCore_odd _ .big
        (by rw [List.length_dropLast, hexlify_length]; omega)
        (b0.dropLast ++ [16 * (b0.getLast hb0ne / 16)])
        (unhexlify_hexlify_dropLast b0 hb0ne hmem0)]
      rw [if_neg (by simp)]
      rw [frombytes_append, frombytes_singleton]
      rw [take_sub4 .big _ _ bits.length hfdl_len (by omega)]
      rw [byteDecode_big_zeroLow _ hglt, ← hbits]
    | little =>
      show hex2baCore _ .little = _
      rw [if_pos rfl]
      rw [hex2baCore_odd _ .little
        (by rw [List.length_dropLast, hexlify_length, List.length_map]; omega)
        ((b0.map swapNib).dropLast ++
          [16 * ((b0.map swapNib).getLast (by simp [hb0ne]) / 16)])
        (unhexlify_hexlify_dropLast (b0.map swapNib) (by simp [hb0ne])
          (map_swapNib_mem_lt b0 hmem0))]
      rw [if_pos rfl]
      rw [List.map_append]
      rw [show (b0.map swapNib).dropLast = b0.dropLast.map swapNib from
        (List.map_dropLast swapNib b0).symm]
      rw [map_swapNib_swapNib _ hdlmem]
      rw [show ((b0.map swapNib).getLast (by simp [hb0ne])) =
        swapNib (b0.getLast hb0ne) from List.getLast_map swapNib b0 _]
      rw [show List.map swapNib [16 * (swapNib (b0.getLast hb0ne) / 16)] =
        [swapNib (16 * (swapNib (b0.getLast hb0ne) / 16))] from rfl]
      rw [swapNib_zero_then _ hglt]
      rw [frombytes_append, frombytes_singleton]
      rw [take_sub4 .little _ _ bits.length hfdl_len (by omega)]
      rw [byteDecode_little_zeroHigh _ hglt, ← hbits]

/-- Witness for C5 on a little-endian 4-bit input (pad nibble exercised),
with arbitrary junk contents in the uninitialized pad. -/
theorem ba2hex_hex2ba_roundtrip_witness :
    (⟨[true, false, true, false], .little⟩ : BitSeq).bits.length % 4 = 0 ∧
      ([true, true, false, true] : List Bool).length = 4 ∧
      (ba2hex ⟨[true, false, true, false], .little⟩
          [true, true, false, true]).bind
        (fun cs => hex2ba (.str cs)
          (⟨[true, false, true, false], Endian.little⟩ : BitSeq).endian) =
        .ok ⟨[true, false, true, false], .little⟩ :=
  ⟨by decide, by decide,
    ba2hex_hex2ba_roundtrip ⟨[true, false, true, false], .little⟩
      [true, true, false, true] (by decide) (by decide)⟩

/-! `hex2ba` accepts `str` and `bytes` alike. -/

theorem unhexlify_error_valueError :
    ∀ (cs : List Char) (er : Err), unhexlify cs = .error er →
      er = .valueError
  | [], er => by
    intro h
    exact absurd h (by simp [unhexlify])
  | [c], er => by
    intro h
    rw [unhexlify] at h
    cases h
    rfl
  | c1 :: c2 :: rest, er => by
    intro h
    rw [unhexlify] at h
    rcases hv1 : hexCharVal? c1 with _ | v1
    · rw [hv1] at h
      dsimp only [] at h
      cases h
      rfl
    · rw [hv1] at h
      rcases hv2 : hexCharVal? c2 with _ | v2
      · rw [hv2] at h
        dsimp only [] at h
        cases h
        rfl
      · rw [hv2] at h
        dsimp only [] at h
        rcases hu : unhexlify rest with er' | b
        · rw [hu] at h
          cases h
          exact unhexlify_error_valueError rest _ hu
        · rw [hu] at h
          exact absurd h (by simp [Except.map])

theorem hex2baCore_ne_typeError (cs : List Char) (e : Endian) :
    hex2baCore cs e ≠ .error .typeError := by
  rw [hex2baCore]
  intro h
  rcases hu : unhexlify (if cs.length % 2 = 1 then cs ++ ['0'] else cs)
    with er | b
  · rw [hu] at h
    dsimp only [] at h
    cases h
    have := unhexlify_error_valueError _ _ hu
    exact absurd this (by simp)
  · rw [hu] at h
    dsimp only [] at h
    exact absurd h (by simp)

/-- Claim C10: `hex2ba` decodes a `bytes` argument exactly as the
equivalent `str` (including the odd-length padding rule), and raises
`TypeError` only for arguments that are neither `str` nor `bytes`. -/
theorem hex2ba_str_bytes (cs : List Char) (e : Endian) :
    hex2ba (.str cs) e = hex2ba (.bytes cs) e ∧
      hex2ba .other e = .error .typeError ∧
      hex2ba (.str cs) e ≠ .error .typeError ∧
      hex2ba (.bytes cs) e ≠ .error .typeError :=
  ⟨rfl, rfl, hex2baCore_ne_typeError cs e, hex2baCore_ne_typeError cs e⟩

/-! Frame lemmas for the store-passing layer: every operation leaves all
previously allocated objects in place (the old store is a prefix of the
new one) and returns a fresh reference, except the same-endianness path of
`make_endian`, which returns the argument reference itself. -/

theorem set_append_singleton (σ : Store) (x v : BitSeq) :
    (List.append σ [x]).set σ.length v = List.append σ [v] := by
  induction σ with
  | nil => rfl
  | cons y t ih =>
    show y :: (List.append t [x]).set t.length v = _
    rw [ih]
    rfl

theorem zerosS_spec (σ : Store) (n : Nat) (e : Endian) :
    (zerosS σ n e).1 = List.append σ [zeros n e] ∧
      (zerosS σ n e).2 = σ.length := by
  simp only [zerosS, Store.alloc, Store.write]
  rw [set_append_singleton]
  exact ⟨rfl, trivial⟩

theorem stripS_spec (σ : Store) (r : Nat) (mode : Mode) :
    (stripS σ r mode).1 = List.append σ [strip (σ.read r) mode] ∧
      (stripS σ r mode).2 = σ.length := by
  simp only [stripS, Store.alloc]
  exact ⟨trivial, trivial⟩

theorem make_endianS_same (σ : Store) (r : Nat) (e : Endian)
    (h : (σ.read r).endian = e) : make_endianS σ r e = (σ, r) := by
  rw [make_endianS, if_pos h]

theorem make_endianS_diff (σ : Store) (r : Nat) (e : Endian)
    (h : ¬ (σ.read r).endian = e) :
    ∃ v, (make_endianS σ r e).1 = List.append σ [v] ∧
      (make_endianS σ r e).2 = σ.length := by
  rw [make_endianS, if_neg h]
  simp only [Store.alloc, Store.write]
  by_cases h0 : (σ.read r).bits.length = 0
  · rw [if_pos h0]
    exact ⟨_, rfl, rfl⟩
  · rw [if_neg h0]
    rw [set_append_singleton]
    by_cases hm : (σ.read r).bits.length % 8 ≠ 0
    · rw [if_pos hm]
      rw [show (List.append σ
          [(⟨(frombytes e ((tobytes (σ.read r).endian (σ.read r).bits).map
            reverse8)).take (σ.read r).bits.length, e⟩ : BitSeq)]).set σ.length
          _ = _ from set_append_singleton σ _ _]
      exact ⟨_, rfl, rfl⟩
    · rw [if_neg hm]
      exact ⟨_, rfl, rfl⟩

theorem ba2hexS_frame (σ : Store) (r : Nat) (junk : List Bool) :
    σ <+: (ba2hexS σ r junk).1 := by
  rw [ba2hexS]
  by_cases h4 : (σ.read r).bits.length % 4 ≠ 0
  · rw [if_pos h4]
  · rw [if_neg h4]
    by_cases h8 : (σ.read r).bits.length % 8 ≠ 0
    · rw [if_pos h8]
      simp only [Store.alloc]
      exact (List.prefix_append σ _).trans (List.prefix_append _ _)
    · rw [if_neg h8]

theorem ba2intS_frame (σ : Store) (r : Nat) : σ <+: (ba2intS σ r).1 := by
  rw [ba2intS]
  by_cases he : (σ.read r).bits.isEmpty
  · rw [if_pos he]
  · rw [if_neg he]
    by_cases h8 : (σ.read r).bits.length % 8 ≠ 0
    · rw [if_pos h8]
      simp only [Store.alloc]
      exact (List.prefix_append σ _).trans (List.prefix_append _ _)
    · rw [if_neg h8]

theorem int2baS_spec (σ : Store) (i : Nat) («length» : Option Nat)
    (e : Endian) :
    σ <+: (int2baS σ i «length» e).1 ∧
      ∀ rr, (int2baS σ i «length» e).2 = .ok rr → rr = σ.length := by
  rw [int2baS]
  rcases h : int2ba i «length» e with er | v
  · exact ⟨List.prefix_refl σ, by intro rr hrr; exact absurd hrr (by simp)⟩
  · simp only [Store.alloc]
    refine ⟨List.prefix_append σ _, ?_⟩
    intro rr hrr
    injection hrr with h1
    exact h1.symm

theorem hex2baS_spec (σ : Store) (arg : HexArg) (e : Endian) :
    σ <+: (hex2baS σ arg e).1 ∧
      ∀ rr, (hex2baS σ arg e).2 = .ok rr → rr = σ.length := by
  rw [hex2baS]
  rcases h : hex2ba arg e with er | v
  · exact ⟨List.prefix_refl σ, by intro rr hrr; exact absurd hrr (by simp)⟩
  · simp only [Store.alloc]
    refine ⟨List.prefix_append σ _, ?_⟩
    intro rr hrr
    injection hrr with h1
    exact h1.symm

theorem huffman_codeS_frame {α : Type} (σ : Store) (fm : List (α × Nat))
    (e : Endian) : σ <+: (huffman_codeS σ fm e).1 := by
  rw [huffman_codeS]
  rcases h : huffman_code fm e with er | res
  · exact List.prefix_refl σ
  · exact List.prefix_append σ _

/-- Claim C9: no operation mutates previously allocated objects — the old
store is always a prefix of the new store (old references still denote
their old values) — every result array is freshly allocated (its reference
differs from the argument's), and only `make_endian`'s same-endianness
path returns the argument object itself. -/
theorem ops_no_mutation (σ : Store) (r : Nat) (hr : r < σ.length)
    (n i : Nat) («length» : Option Nat) (e : Endian) (mode : Mode)
    (junk : List Bool) (arg : HexArg) (fm : List (Char × Nat)) :
    (σ <+: (zerosS σ n e).1 ∧ (zerosS σ n e).2 = σ.length) ∧
    (σ <+: (stripS σ r mode).1 ∧ (stripS σ r mode).2 ≠ r) ∧
    (σ <+: (make_endianS σ r e).1 ∧
      ((σ.read r).endian = e → make_endianS σ r e = (σ, r)) ∧
      (¬ (σ.read r).endian = e → (make_endianS σ r e).2 ≠ r)) ∧
    σ <+: (ba2hexS σ r junk).1 ∧
    σ <+: (ba2intS σ r).1 ∧
    (σ <+: (int2baS σ i «length» e).1 ∧
      ∀ rr, (int2baS σ i «length» e).2 = .ok rr → rr ≠ r) ∧
    (σ <+: (hex2baS σ arg e).1 ∧
      ∀ rr, (hex2baS σ arg e).2 = .ok rr → rr ≠ r) ∧
    σ <+: (huffman_codeS σ fm e).1 := by
  have hz := zerosS_spec σ n e
  have hs := stripS_spec σ r mode
  have hi := int2baS_spec σ i «length» e
  have hh := hex2baS_spec σ arg e
  refine ⟨⟨by rw [hz.1]; exact List.prefix_append σ _, hz.2⟩,
    ⟨by rw [hs.1]; exact List.prefix_append σ _, by rw [hs.2]; omega⟩,
    ⟨?_, fun he => make_endianS_same σ r e he, ?_⟩,
    ba2hexS_frame σ r junk, ba2intS_frame σ r,
    ⟨hi.1, fun rr hrr => by rw [hi.2 rr hrr]; omega⟩,
    ⟨hh.1, fun rr hrr => by rw [hh.2 rr hrr]; omega⟩,
    huffman_codeS_frame σ fm e⟩
  · by_cases he : (σ.read r).endian = e
    · rw [make_endianS_same σ r e he]
    · obtain ⟨v, h1, h2⟩ := make_endianS_diff σ r e he
      rw [h1]
      exact List.prefix_append σ _
  · intro he
    obtain ⟨v, h1, h2⟩ := make_endianS_diff σ r e he
    rw [h2]
    omega

/-- Witness for C9 (the `strip` conjunct) at a one-object store. -/
theorem ops_no_mutation_witness :
    0 < [(⟨[true], Endian.big⟩ : BitSeq)].length ∧
      ([(⟨[true], Endian.big⟩ : BitSeq)] <+:
          (stripS [⟨[true], .big⟩] 0 .both).1 ∧
        (stripS [⟨[true], .big⟩] 0 .both).2 ≠ 0) :=
  ⟨by decide, (ops_no_mutation [⟨[true], .big⟩] 0 (by decide) 1 5 none
    .little .both [] .other []).2.1⟩
